import Mathlib

/-!
Formal model of `scripts/generate-readme.js`: a GitHub profile README
generator.  The script loads a JSON advisory list, recursively discovers
markdown blog posts, extracts frontmatter via regular expressions, sorts
posts by date (descending) with `Array.prototype.sort`, groups advisories
by their literal `date` (year) field, and renders a single templated
document.

The model takes the discovered file list (relative path, file content)
and the parsed advisory collection as inputs; filesystem traversal and
JSON decoding stay outside the model.  String/regex operations, the V8
array sort algorithm (the run-detection + binary-insertion path used for arrays of
fewer than 64 elements), `Date` parsing of the ECMA-262 date-time string
format, and the object-keyed grouping (including the `Object.prototype`
property collision behaviour of `acc[year]`) are modelled faithfully.
-/

/-- Characters matched by the JavaScript `\s` class (ECMA-262 WhiteSpace and
LineTerminator). -/
def jsWs (c : Char) : Bool :=
  c = ' ' || c = '\t' || c = '\n' || c = '\r' || c = '\u000B' || c = '\u000C' ||
  c = ' ' || c = ' ' || (' ' ≤ c && c ≤ ' ') ||
  c = ' ' || c = ' ' || c = ' ' || c = ' ' || c = '　' ||
  c = '﻿'

/-- Characters treated as line terminators by the JavaScript dot class `.` (which matches
any character except these). -/
def jsNl (c : Char) : Bool :=
  c = '\n' || c = '\r' || c = ' ' || c = ' '

/-- The single-quote character, written via its code point. -/
def squote : Char := Char.ofNat 39

/-- Quote characters accepted by the quote classes (double or single quote)
in the title regex. -/
def isTitleQuote (c : Char) : Bool := c = '"' || c = squote

/-- Index of the first occurrence of `pat` in a character list (the position
where a substring search such as `String.prototype.replace` with a string
pattern, or the leftmost regex alternative, first matches). -/
def firstSub (pat : List Char) : List Char → Option Nat
  | [] => if pat.isPrefixOf ([] : List Char) then some 0 else none
  | c :: cs => if pat.isPrefixOf (c :: cs) then some 0 else (firstSub pat cs).map (· + 1)

/-- Leftmost-match search: try the matcher `f` at every start position, in
order, as a regex engine does for an unanchored pattern. -/
def scanFor (f : List Char → Option (List Char)) : List Char → Option (List Char)
  | [] => none
  | c :: cs => match f (c :: cs) with
    | some r => some r
    | none => scanFor f cs

/-- Model of matching content against the anchored frontmatter regex
(caret, three dashes, newline, lazy any-character group, newline, three
dashes) and returning capture group 1.  The pattern is anchored at the start of the string; the lazy group
makes the capture the shortest prefix followed by `"\n---"`, i.e. the capture
ends at the first occurrence of `"\n---"` at index 4 or later. -/
def frontmatterOf (content : String) : Option String :=
  let cs := content.data
  if ['-', '-', '-', '\n'].isPrefixOf cs then
    match firstSub ['\n', '-', '-', '-'] (cs.drop 4) with
    | some p => some (String.mk ((cs.drop 4).take p))
    | none => none
  else none

/-- Lazy `(.+?)` part of the title regex followed by the closing quote
class, applied after the opening quote: the capture is the shortest
non-empty run of non-line-terminator characters followed by a double or
single quote.  Hitting a line terminator first means
no match at this start position. -/
def lazyQuoted : List Char → List Char → Option (List Char)
  | acc, c :: cs =>
    if isTitleQuote c && !acc.isEmpty then some acc.reverse
    else if jsNl c then none
    else lazyQuoted (c :: acc) cs
  | _, [] => none

/-- Attempt to match the title regex (literal `title:`, then `\s*`, then a
quote, then the lazy capture, then a quote) at the start of `cs`.
The greedy `\s*` cannot backtrack usefully (a quote is never whitespace),
so the opening quote must directly follow the maximal whitespace run. -/
def titleAt (cs : List Char) : Option (List Char) :=
  if "title:".data.isPrefixOf cs then
    match (cs.drop 6).dropWhile jsWs with
    | q :: rest => if isTitleQuote q then lazyQuoted [] rest else none
    | [] => none
  else none

/-- Model of applying the title regex to the frontmatter and taking capture
group 1: leftmost match over all start positions. -/
def extractTitle (fm : String) : Option String :=
  (scanFor titleAt fm.data).map String.mk

/-- Backtracking of the greedy `\s*` in `/date:\s*(.+)/` when the whitespace
run extends to the end of the input: the engine gives characters back one at
a time, so the capture starts at the last non-line-terminator character of
the run (if any) and `.+` then extends to the next line terminator. -/
def wsBacktrack : List Char → Option (List Char)
  | [] => none
  | c :: cs =>
    match wsBacktrack cs with
    | some g => some g
    | none => if jsNl c then none else some ((c :: cs).takeWhile (fun x => !jsNl x))

/-- Attempt to match the date regex (literal `date:`, then `\s*`, then the
greedy capture `(.+)`) at the start of `cs`.  `\s*` first
consumes the maximal whitespace run; if any character follows, it is not
whitespace (hence not a line terminator) and the greedy `.+` captures up to
the next line terminator; otherwise the engine backtracks into the run. -/
def dateAt (cs : List Char) : Option (List Char) :=
  if "date:".data.isPrefixOf cs then
    let rest := cs.drop 5
    match rest.dropWhile jsWs with
    | [] => wsBacktrack (rest.takeWhile jsWs)
    | c :: cs2 => some ((c :: cs2).takeWhile (fun x => !jsNl x))
  else none

/-- Model of applying the date regex to the frontmatter and taking capture
group 1: leftmost match over all start positions. -/
def extractDate (fm : String) : Option String :=
  (scanFor dateAt fm.data).map String.mk

/-- Model of `replace` called on the relative path with the string pattern
`.md` and an empty replacement: `String.prototype.replace` with a string
pattern removes only the first occurrence. -/
def removeFirstMd (cs : List Char) : List Char :=
  match firstSub ['.', 'm', 'd'] cs with
  | some p => cs.take p ++ cs.drop (p + 3)
  | none => cs

/-- Model of the slug derivation: remove the first occurrence of `.md` from
the relative path, then replace every backslash with a forward slash. -/
def slugOf (path : String) : String :=
  String.mk ((removeFirstMd path.data).map (fun c => if c = '\\' then '/' else c))

/-- Numeric value of an ASCII digit character. -/
def digitVal (c : Char) : Option Nat :=
  if c.isDigit then some (c.toNat - 48) else none

/-- Read exactly two ASCII digits from the front of a character list. -/
def read2 : List Char → Option (Nat × List Char)
  | a :: b :: r =>
    match digitVal a, digitVal b with
    | some x, some y => some (10 * x + y, r)
    | _, _ => none
  | _ => none

/-- Read exactly four ASCII digits from the front of a character list. -/
def read4 : List Char → Option (Nat × List Char)
  | a :: b :: c :: d :: r =>
    match digitVal a, digitVal b, digitVal c, digitVal d with
    | some w, some x, some y, some z => some (1000 * w + 100 * x + 10 * y + z, r)
    | _, _, _, _ => none
  | _ => none

/-- Gregorian leap-year test. -/
def isLeap (y : Nat) : Bool :=
  (y % 4 == 0 && y % 100 != 0) || y % 400 == 0

/-- Number of days in a month of the proleptic Gregorian calendar. -/
def daysInMonth (y m : Nat) : Nat :=
  if m = 2 then (if isLeap y then 29 else 28)
  else if m = 4 || m = 6 || m = 9 || m = 11 then 30
  else 31

/-- Days from the Unix epoch (1970-01-01) to the given civil date, via the
standard days-from-civil algorithm. -/
def daysFromCivil (y : Int) (m d : Nat) : Int :=
  let y2 : Int := if m ≤ 2 then y - 1 else y
  let era : Int := Int.fdiv y2 400
  let yoe : Int := y2 - era * 400
  let mp : Int := if m > 2 then (m : Int) - 3 else (m : Int) + 9
  let doy : Int := Int.fdiv (153 * mp + 2) 5 + (d : Int) - 1
  let doe : Int := yoe * 365 + Int.fdiv yoe 4 - Int.fdiv yoe 100 + doy
  era * 146097 + doe - 719468

/-- Milliseconds denoted by a fractional-second digit sequence of length one
to three. -/
def fracMs : List Nat → Option Nat
  | [a] => some (a * 100)
  | [a, b] => some (a * 100 + b * 10)
  | [a, b, c] => some (a * 100 + b * 10 + c)
  | _ => none

/-- Read one or more ASCII digits from the front of a character list. -/
def readDigits : List Char → List Nat × List Char
  | [] => ([], [])
  | c :: r =>
    match digitVal c with
    | some v => let (ds, rest) := readDigits r; (v :: ds, rest)
    | none => ([], c :: r)

/-- Parse the time-zone offset suffix of the date-time string format:
either `Z` or a sign followed by `HH:mm`.  Returns the offset in minutes. -/
def parseOffset : List Char → Option Int
  | [] => some 0
  | ['Z'] => some 0
  | c :: r =>
    if c = '+' || c = '-' then
      match read2 r with
      | some (h, ':' :: r2) =>
        match read2 r2 with
        | some (mi, []) =>
          if h ≤ 23 && mi ≤ 59 then
            some ((if c = '-' then -1 else 1) * ((h : Int) * 60 + mi))
          else none
        | _ => none
      | _ => none
    else none

/-- Parse the time part `HH:mm[:ss[.frac]]` followed by an optional offset.
Returns milliseconds since midnight, already adjusted by the offset. -/
def parseTime (cs : List Char) : Option Int :=
  match read2 cs with
  | some (h, ':' :: r1) =>
    match read2 r1 with
    | some (mi, r2) =>
      if h ≤ 23 && mi ≤ 59 then
        let base : Int := (h : Int) * 3600000 + (mi : Int) * 60000
        match r2 with
        | ':' :: r3 =>
          match read2 r3 with
          | some (s, r4) =>
            if s ≤ 59 then
              match r4 with
              | '.' :: r5 =>
                let (ds, r6) := readDigits r5
                match fracMs ds with
                | some ms =>
                  (parseOffset r6).map (fun off => base + (s : Int) * 1000 + ms - off * 60000)
                | none => none
              | _ =>
                (parseOffset r4).map (fun off => base + (s : Int) * 1000 - off * 60000)
            else none
          | _ => none
        | _ => (parseOffset r2).map (fun off => base - off * 60000)
      else none
    | _ => none
  | _ => none

/-- Model of `new Date(string).getTime()` for the ECMA-262 date-time string
format `YYYY[-MM[-DD]][THH:mm[:ss[.frac]]][Z or sign HH:mm]`, returning
`none` for `NaN` (an invalid date).  Simplifications, noted rather than
modelled: the expanded six-digit-year form is omitted; strings that do not
conform to the format are implementation-defined per ECMA-262 (the V8
fallback parser accepts further legacy forms) and are mapped to `none`;
date-times without an offset are interpreted in the host time zone, modelled
here as UTC (the script runs in CI whose host zone is UTC).  Leading and
trailing whitespace is skipped as V8 does. -/
def jsDateParse (s : String) : Option Int :=
  let cs := ((s.data.dropWhile jsWs).reverse.dropWhile jsWs).reverse
  match read4 cs with
  | none => none
  | some (y, r1) =>
    let withDate : Nat → Nat → List Char → Option Int := fun m d rest =>
      if 1 ≤ m && m ≤ 12 && 1 ≤ d && d ≤ daysInMonth y m then
        let dayMs : Int := daysFromCivil (y : Int) m d * 86400000
        match rest with
        | [] => some dayMs
        | 'T' :: r => (parseTime r).map (fun t => dayMs + t)
        | _ => none
      else none
    match r1 with
    | [] => withDate 1 1 []
    | 'T' :: r => withDate 1 1 ('T' :: r)
    | '-' :: r2 =>
      match read2 r2 with
      | some (m, r3) =>
        match r3 with
        | [] => withDate m 1 []
        | 'T' :: r => withDate m 1 ('T' :: r)
        | '-' :: r4 =>
          match read2 r4 with
          | some (d, r5) => withDate m d r5
          | none => none
        | _ => none
      | none => none
    | _ => none

/-- A blog post record as built by the script: extracted title, parsed date
(`none` models an Invalid Date, i.e. `NaN`), and derived slug. -/
structure Post where
  title : String
  date : Option Int
  slug : String
deriving DecidableEq

/-- An advisory record from `src/data/cves.json`, with the fields the script
reads: identifier, reference link, category, target name, and the literal
year field (named `date` in the data). -/
structure Cve where
  id : String
  link : String
  type : String
  target : String
  date : String
deriving DecidableEq

/-- Model of the per-file callback in `blogFiles.map(...)`: match the
frontmatter block; if absent the file yields `null` (here `none`); otherwise
extract the title (defaulting to the empty string), parse the date (an
unmatched date field yields the empty string, and `new Date` of a
non-conforming string is invalid), and derive the slug. -/
def parsePost (relativePath content : String) : Option Post :=
  match frontmatterOf content with
  | none => none
  | some fm =>
    some
      { title := (extractTitle fm).getD ""
        date := jsDateParse ((extractDate fm).getD "")
        slug := slugOf relativePath }

/-- Uncurried form of `parsePost` applied to a discovered file, given as a
pair of relative path and file content. -/
def parseFile (f : String × String) : Option Post := parsePost f.1 f.2

/-- Model of the comparator `(a, b) => b.date - a.date` composed with the
`SortCompare` step of `Array.prototype.sort`: subtracting an Invalid Date
yields `NaN`, which `SortCompare` converts to `+0`. -/
def jsCompare (a b : Post) : Int :=
  match a.date, b.date with
  | some x, some y => y - x
  | _, _ => 0

section V8Sort

variable {α : Type} (c : α → α → Int)

/-- Extension of an ascending run in the V8 sort run detector: keep taking
elements while the comparator of current against previous is nonnegative. -/
def ascRun (prev : α) : List α → List α × List α
  | [] => ([], [])
  | x :: xs =>
    if 0 ≤ c x prev then (x :: (ascRun x xs).1, (ascRun x xs).2)
    else ([], x :: xs)

/-- Extension of a strictly descending run in the V8 sort run detector:
keep taking elements while the comparator of current against previous is
negative. -/
def descRun (prev : α) : List α → List α × List α
  | [] => ([], [])
  | x :: xs =>
    if c x prev < 0 then (x :: (descRun x xs).1, (descRun x xs).2)
    else ([], x :: xs)

/-- Model of `CountAndMakeRun` in the V8 TimSort: detect an initial
ascending (comparator nonnegative between neighbours) or strictly
descending run; a descending run is reversed in place.  Returns the run and
the remaining elements. -/
def makeRun : List α → List α × List α
  | [] => ([], [])
  | [a] => ([a], [])
  | a :: b :: rest =>
    if c b a < 0 then ((a :: b :: (descRun c b rest).1).reverse, (descRun c b rest).2)
    else (a :: b :: (ascRun c b rest).1, (ascRun c b rest).2)

/-- The binary-search loop of `BinaryInsertionSort` in the V8 TimSort: find
the insertion index of `pivot` in the sorted prefix `l` between `left` and
`right`, moving `right` down when the comparator of pivot against the middle
element is negative.  The fuel argument dominates the loop iteration count;
any fuel of at least `right - left` yields the fixpoint. -/
def binIdx (pivot : α) (l : List α) : Nat → Nat → Nat → Nat
  | 0, left, _ => left
  | fuel + 1, left, right =>
    if left < right then
      let mid := left + (right - left) / 2
      if c pivot (l.getD mid pivot) < 0 then binIdx pivot l fuel left mid
      else binIdx pivot l fuel (mid + 1) right
    else left

/-- Insert one element into the sorted prefix at the index found by the
binary search, as `BinaryInsertionSort` does. -/
def binInsert (l : List α) (x : α) : List α :=
  let i := binIdx c x l l.length 0 l.length
  l.take i ++ x :: l.drop i

/-- Insert all pending elements, left to right, into the sorted run. -/
def binInsertAll (run pending : List α) : List α :=
  pending.foldl (binInsert c) run

/-- Model of `Array.prototype.sort` as implemented by the V8 TimSort for
arrays of fewer than 64 elements: such an array is a single forced run,
completed by binary insertion (`minRunLength` equals the length, so no
merging occurs).  Arrays shorter than two elements are returned as is.  For
a consistent comparator this coincides with the general TimSort on longer
arrays as well, both producing the unique stable sorted permutation. -/
def v8Sort (l : List α) : List α :=
  if l.length < 2 then l
  else binInsertAll c (makeRun c l).1 (makeRun c l).2

end V8Sort

/-- The unsorted post records of the discovered files, in encounter order:
`blogFiles.map(...)` followed by `.filter(Boolean)`. -/
def postRecords (files : List (String × String)) : List Post :=
  files.filterMap parseFile

/-- Model of `blogPosts`: the post records sorted by
`(a, b) => b.date - a.date`. -/
def blogPostsOf (files : List (String × String)) : List Post :=
  v8Sort jsCompare (postRecords files)

/-- The line rendered for one post by the post loop:
two spaces, a bullet, the title in brackets, and the URL built from the
fixed site prefix, the slug, and a trailing slash. -/
def postEntryOf (p : Post) : String :=
  "  * [" ++ p.title ++ "](https://jomar.fr/blog/" ++ p.slug ++ "/)\n"

/-- The rendered post entries, in output order. -/
def postEntries (files : List (String × String)) : List String :=
  (blogPostsOf files).map postEntryOf

/-- The fixed document preamble of the template: everything before the
dynamically generated post entries. -/
def tplHeader : String :=
  "<h1 align=\"center\">Hi 👋, I\x27m Jomar</h1>\n\n<p align=\"center\"><img src=\"https://readme-typing-svg.demolab.com?font=Fira+Code&weight=700&size=17&pause=1000&color=E84A4A&center=true&multiline=true&random=false&width=435&lines=A+passionate+Research+Engineer+at+Tenable+;and+BugHunter\" alt=\"Typing SVG\" /></p>\n\n<p align=\"center\">\n  <a href=\"mailto:contact@jomar.fr\">\n    <img src=\"https://img.shields.io/badge/contact@jomar.fr-0078D4?style=for-the-badge&logo=Gmail&logoColor=00AEFF&labelColor=black&color=black\">\n  </a>\n  <a href=\"https://www.jomar.fr/\">\n    <img src=\"https://img.shields.io/badge/-Website-blue?style=for-the-badge&logo=Safari&logoColor=00AEFF&labelColor=black&color=black\">\n  </a>\n  <a href=\"https://www.linkedin.com/in/joshua-martinelle-a34911133/\">\n    <img src=\"https://img.shields.io/badge/-Linkedin-blue?style=for-the-badge&logo=Linkedin&logoColor=00AEFF&labelColor=black&color=black\">\n  </a>\n  <a href=\"https://x.com/J0_mart\">\n    <img src=\"https://img.shields.io/badge/-J0_mart-blue?style=for-the-badge&logo=X&logoColor=00AEFF&labelColor=black&color=black\">\n  </a>\n</p>\n\n<p align=\"center\">\n  <a href=\"https://yeswehack.com/hunters/jomar\">YesWeHack</a> •\n  <a href=\"https://app.intigriti.com/profile/jomar\">Intigriti</a> •\n  <a href=\"https://pentesterlab.com/profile/J0mar\">Pentesterlab</a>\n</p>\n\n<p>Hacker at ❤️, I bring my passion for cybersecurity to my work every day. With a background in bugbounty, I have a unique perspective on how to identify and remediate potential threats to systems. I have contributed to several projects, including the development of new open source tools, scripts or the discovery of vulnerabilities.</p>\n\n<h2>🧰 My everyday toolkit</h2>\n\n<p align=\"center\">\n  <img src=\"https://skillicons.dev/icons?i=ruby,rails,php,laravel,go,python,javascript,astro\" />\n</p>\n\n<p align=\"center\">\n  <img src=\"https://skillicons.dev/icons?i=bash,docker,git,linux,nginx,postgres,mysql\" />\n</p>\n\n<h2>📝 Blog Posts & External contribution</h2>\n\n<details>\n  <summary>My latest personal blog posts</summary>\n\n"

/-- The fixed middle of the template: from the close of the personal post
list through the static external-contribution lists, up to the advisory
section heading. -/
def tplMiddle : String :=
  "</details>\n\n<details>\n  <summary>Tenable Blog</summary>\n\n  * [Bypass a Patch for BentoML\x27s Server-Side Request Forgery Vulnerability CVE-2025-54381](https://www.tenable.com/blog/how-tenable-bypassed-patch-for-bentoml-ssrf-vulnerability-CVE-2025-54381)\n  * [Identifying Web Cache Poisoning and Web Cache Deception](https://www.tenable.com/blog/identifying-web-cache-poisoning-and-web-cache-deception-how-tenable-web-app-scanning-can-help)\n  * [Password Management and Authentication Best Practices](https://www.tenable.com/blog/password-management-and-authentication-best-practices)\n  * [Identifying XML External Entity](https://www.tenable.com/blog/identifying-xml-external-entity-how-tenable-io-web-application-scanning-can-help)\n  * [Identifying Server Side Request Forgery](https://www.tenable.com/blog/identifying-server-side-request-forgery-how-tenable-io-web-application-scanning-can-help)\n</details>\n\n<details>\n  <summary>Tenable Medium</summary>\n\n  * [CVE-2024–8182 : Accidental Discovery of an Unauthenticated DoS](https://medium.com/tenable-techblog/cve-2024-8182-accidental-discovery-of-an-unauthenticated-dos-1d89947a09a4)\n  * [Solidus — Code Review](https://medium.com/tenable-techblog/solidus-code-review-7e9b606a5c10)\n  * [WordPress MyCalendar Plugin — Unauthenticated SQL Injection(CVE-2023–6360)](https://medium.com/tenable-techblog/wordpress-mycalendar-plugin-unauthenticated-sql-injection-cve-2023-6360-d272887ddf12)\n  * [WordPress BuddyForms Plugin — Unauthenticated Insecure Deserialization (CVE-2023–26326)](https://medium.com/tenable-techblog/wordpress-buddyforms-plugin-unauthenticated-insecure-deserialization-cve-2023-26326-3becb5575ed8)\n  * [Multiples WordPress plugins CVE analysis](https://medium.com/tenable-techblog/multiples-wordpress-plugins-cve-analysis-28843a8b8fd0)\n  * [Wordpress 6.0.3 Patch Analysis](https://medium.com/tenable-techblog/wordpress-6-0-3-patch-analysis-6a2c0707cda6)\n</details>\n\n<details>\n  <summary>BugBountyHunter Website</summary>\n\n  * [Mass assignment and learning new things](https://www.bugbountyhunter.com/articles/?on=mass-assignment-and-learning-new-things)\n  * [My Methodology during Firstblood](https://www.bugbountyhunter.com/articles/?on=firstbloodhackers)\n</details>\n\n<details>\n  <summary>Synetis Blog</summary>\n\n  * [AMSI et Antivirus : des protections loin d\x27être suffisantes !](https://www.synetis.com/amsi-antivirus/)\n  * [Gestion des mots de passe côté backend, Hash & Assaisonnement !](https://www.synetis.com/gestion-mdp/)\n  * [Illustrations d\x27attaques sur le wifi](https://www.synetis.com/illustrations-dattaques-sur-le-wifi/)\n</details>\n\n<h2>🏆 CVE & Security Research</h2>\n\n"

/-- The fixed tail of the template: the statistics section. -/
def tplFooter : String :=
  "<h2>📊 Github Statistics</h2>\n\n![Stats](./profile/stats.svg)\n"

/-- The own-property names of `Object.prototype` in V8.  For a plain object
accumulator, `acc[year]` with one of these as the key finds the inherited
property, which is truthy, so the guarded initialisation `acc[year] = []` is
skipped and the subsequent `acc[year].push(cve)` throws a `TypeError`
(neither the inherited functions nor the prototype object have a `push`
method). -/
def protoProps : List String :=
  ["constructor", "hasOwnProperty", "isPrototypeOf", "propertyIsEnumerable",
   "toLocaleString", "toString", "valueOf", "__defineGetter__",
   "__defineSetter__", "__lookupGetter__", "__lookupSetter__", "__proto__"]

/-- One step of the `cves.reduce` grouping: look up the year key on the
accumulator; push onto an existing own-property group; otherwise initialise
a fresh group, unless the key collides with an `Object.prototype` property,
in which case the run throws. -/
def insertCve (acc : List (String × List Cve)) (cve : Cve) :
    Except String (List (String × List Cve)) :=
  if (acc.find? (fun p => p.1 == cve.date)).isSome then
    .ok (acc.map (fun p => if p.1 == cve.date then (p.1, p.2 ++ [cve]) else p))
  else if cve.date ∈ protoProps then
    .error "TypeError: acc[year].push is not a function"
  else .ok (acc ++ [(cve.date, [cve])])

/-- Model of `cvesByYear`: the grouping of advisories by their literal year
field, as an association list in first-seen key order.  An uncaught
`TypeError` (see `insertCve`) aborts the run. -/
def groupCvesByYear (cves : List Cve) : Except String (List (String × List Cve)) :=
  cves.foldlM insertCve []

/-- Model of the year comparator `(a, b) => b.localeCompare(a)` restricted
to its sign.  `localeCompare` with the default locale coincides with
code-unit comparison on ASCII digit strings (the year keys of the data);
for such strings this is the Lean lexicographic string order. -/
def strCmpDesc (a b : String) : Int :=
  if b < a then -1 else if a = b then 0 else 1

/-- Model of `years = Object.keys(cvesByYear).sort((a, b) =>
b.localeCompare(a))` paired with the later `cvesByYear[year]` lookups: the
groups sorted by key, descending.  The group keys are distinct, so sorting
the association list directly agrees with sorting the key array and then
indexing, whatever key enumeration order `Object.keys` produced. -/
def sortedYears (groups : List (String × List Cve)) : List (String × List Cve) :=
  v8Sort (fun p q => strCmpDesc p.1 q.1) groups

/-- The line rendered for one advisory inside a year group. -/
def cveEntryOf (cve : Cve) : String :=
  "  * [" ++ cve.id ++ "](" ++ cve.link ++ ") - " ++ cve.type ++ " in [" ++
    cve.target ++ "](" ++ cve.link ++ ")\n"

/-- The block rendered for one year: a collapsible section headed by the
year key, containing the lines of its advisories in group order. -/
def yearBlock (p : String × List Cve) : String :=
  "<details>\n  <summary>" ++ p.1 ++ "</summary>\n\n" ++
    String.join (p.2.map cveEntryOf) ++ "</details>\n\n"

/-- Model of the whole script run.  The first argument is the result of
reading and JSON-parsing `src/data/cves.json` (`none` models a thrown
exception: an unreadable or unparsable file).  The second is the list of
discovered markdown files under `src/content/blog`, as pairs of relative
path and content, in traversal order.  An `Except.error` result models an
uncaught exception: the process exits nonzero before `writeFileSync`, so no
output document is produced.  An `Except.ok` result is the document written
to the output path. -/
def generateReadme (cvesLoad : Option (List Cve)) (files : List (String × String)) :
    Except String String :=
  match cvesLoad with
  | none => .error "SyntaxError: cannot read or parse src/data/cves.json"
  | some cves =>
    let posts := blogPostsOf files
    match groupCvesByYear cves with
    | .error e => .error e
    | .ok groups =>
      .ok (tplHeader ++ String.join (posts.map postEntryOf) ++ tplMiddle ++
        String.join ((sortedYears groups).map yearBlock) ++ tplFooter)

section SortPerm

variable {α : Type} (c : α → α → Int)

/-- The ascending-run extension splits its input into run and remainder. -/
theorem ascRun_append (prev : α) (l : List α) :
    (ascRun c prev l).1 ++ (ascRun c prev l).2 = l := by
  induction l generalizing prev with
  | nil => simp [ascRun]
  | cons x xs ih =>
    by_cases h : 0 ≤ c x prev
    · simp [ascRun, h, ih]
    · simp [ascRun, h]

/-- The descending-run extension splits its input into run and remainder. -/
theorem descRun_append (prev : α) (l : List α) :
    (descRun c prev l).1 ++ (descRun c prev l).2 = l := by
  induction l generalizing prev with
  | nil => simp [descRun]
  | cons x xs ih =>
    by_cases h : c x prev < 0
    · simp [descRun, h, ih]
    · simp [descRun, h]

/-- Run detection permutes its input: the run followed by the remainder is a
permutation of the original list (equal to it for an ascending run, and a
front-segment reversal for a descending one). -/
theorem makeRun_perm (l : List α) :
    ((makeRun c l).1 ++ (makeRun c l).2).Perm l := by
  match l with
  | [] => simp [makeRun]
  | [a] => simp [makeRun]
  | a :: b :: rest =>
    by_cases h : c b a < 0
    · simp only [makeRun, h, if_pos]
      have h1 : ((a :: b :: (descRun c b rest).1).reverse ++ (descRun c b rest).2).Perm
          ((a :: b :: (descRun c b rest).1) ++ (descRun c b rest).2) :=
        (List.reverse_perm _).append_right _
      refine h1.trans ?_
      have h2 : (a :: b :: (descRun c b rest).1) ++ (descRun c b rest).2
          = a :: b :: ((descRun c b rest).1 ++ (descRun c b rest).2) := by simp
      rw [h2, descRun_append]
    · simp only [makeRun, h, if_neg, not_false_iff]
      have h2 : (a :: b :: (ascRun c b rest).1) ++ (ascRun c b rest).2
          = a :: b :: ((ascRun c b rest).1 ++ (ascRun c b rest).2) := by simp
      rw [h2, ascRun_append]

/-- Binary insertion inserts exactly the pivot: the result is a permutation
of the pivot consed onto the prefix. -/
theorem binInsert_perm (l : List α) (x : α) : (binInsert c l x).Perm (x :: l) := by
  unfold binInsert
  refine List.perm_middle.trans ?_
  rw [List.take_append_drop]

/-- Inserting all pending elements yields a permutation of run and pending
together. -/
theorem binInsertAll_perm (pending run : List α) :
    (binInsertAll c run pending).Perm (run ++ pending) := by
  induction pending generalizing run with
  | nil => simp [binInsertAll]
  | cons x xs ih =>
    have h1 : binInsertAll c run (x :: xs) = binInsertAll c (binInsert c run x) xs := rfl
    rw [h1]
    refine (ih (binInsert c run x)).trans ?_
    refine ((binInsert_perm c run x).append_right xs).trans ?_
    exact List.perm_middle.symm

/-- The modelled sort permutes its input, whatever the comparator does
(including the inconsistent comparator produced by invalid dates). -/
theorem v8Sort_perm (l : List α) : (v8Sort c l).Perm l := by
  unfold v8Sort
  split
  · exact List.Perm.refl l
  · exact (binInsertAll_perm c _ _).trans (makeRun_perm c l)

end SortPerm

section SortKeyed

variable {α : Type} {κ : Type} [LinearOrder κ]

/-- The comparator agrees, on elements satisfying `P`, with the descending
order induced by the key function `k`: a negative comparator value means the
first argument has the strictly larger key. -/
def CmpKeyed (c : α → α → Int) (k : α → κ) (P : α → Prop) : Prop :=
  ∀ a b, P a → P b → ((c a b < 0 ↔ k b < k a) ∧ (c a b ≤ 0 ↔ k b ≤ k a))

/-- Elements of the detected run come from the input list. -/
theorem makeRun_fst_subset (c : α → α → Int) (l : List α) :
    ∀ x ∈ (makeRun c l).1, x ∈ l := fun x hx =>
  (makeRun_perm c l).mem_iff.mp (List.mem_append_left _ hx)

/-- Elements of the remainder after run detection come from the input
list. -/
theorem makeRun_snd_subset (c : α → α → Int) (l : List α) :
    ∀ x ∈ (makeRun c l).2, x ∈ l := fun x hx =>
  (makeRun_perm c l).mem_iff.mp (List.mem_append_right _ hx)

/-- The ascending-run extension yields a chain of nonnegative comparator
values between neighbours. -/
theorem ascRun_chain (c : α → α → Int) (prev : α) (l : List α) :
    List.Chain (fun u v => 0 ≤ c v u) prev (ascRun c prev l).1 := by
  induction l generalizing prev with
  | nil => simp [ascRun]
  | cons x xs ih =>
    by_cases h : 0 ≤ c x prev
    · simp only [ascRun, h, if_pos]
      exact List.Chain.cons h (ih x)
    · simp [ascRun, h]

/-- The descending-run extension yields a chain of negative comparator
values between neighbours. -/
theorem descRun_chain (c : α → α → Int) (prev : α) (l : List α) :
    List.Chain (fun u v => c v u < 0) prev (descRun c prev l).1 := by
  induction l generalizing prev with
  | nil => simp [descRun]
  | cons x xs ih =>
    by_cases h : c x prev < 0
    · simp only [descRun, h, if_pos]
      exact List.Chain.cons h (ih x)
    · simp [descRun, h]

/-- Translate an ascending comparator chain into a non-increasing key
chain, on elements satisfying `P`. -/
theorem chain_key_of_asc {c : α → α → Int} {k : α → κ} {P : α → Prop}
    (hk : CmpKeyed c k P) :
    ∀ (x : α) (m : List α), P x → (∀ y ∈ m, P y) →
      List.Chain (fun u v => 0 ≤ c v u) x m → List.Chain (fun u v => k v ≤ k u) x m := by
  intro x m
  induction m generalizing x with
  | nil => intro _ _ _; exact List.Chain.nil
  | cons y ys ih =>
    intro hx hm hch
    rcases List.chain_cons.mp hch with ⟨h1, h2⟩
    have hy : P y := hm y (by simp)
    have hkey : k y ≤ k x := by
      have hiff := (hk y x hy hx).1
      have hnot : ¬ (c y x < 0) := by omega
      exact le_of_not_lt (mt hiff.mpr hnot)
    exact List.Chain.cons hkey (ih y hy (fun z hz => hm z (by simp [hz])) h2)

/-- Translate a strictly descending comparator chain into a strictly
increasing key chain, on elements satisfying `P`. -/
theorem chain_key_of_desc {c : α → α → Int} {k : α → κ} {P : α → Prop}
    (hk : CmpKeyed c k P) :
    ∀ (x : α) (m : List α), P x → (∀ y ∈ m, P y) →
      List.Chain (fun u v => c v u < 0) x m → List.Chain (fun u v => k u < k v) x m := by
  intro x m
  induction m generalizing x with
  | nil => intro _ _ _; exact List.Chain.nil
  | cons y ys ih =>
    intro hx hm hch
    rcases List.chain_cons.mp hch with ⟨h1, h2⟩
    have hy : P y := hm y (by simp)
    have hkey : k x < k y := (hk y x hy hx).1.mp h1
    exact List.Chain.cons hkey (ih y hy (fun z hz => hm z (by simp [hz])) h2)

/-- The detected run (after the reversal of a descending run) is
non-increasing in the key. -/
theorem makeRun_fst_pairwise {c : α → α → Int} {k : α → κ} {P : α → Prop}
    (hk : CmpKeyed c k P) (l : List α) (hP : ∀ x ∈ l, P x) :
    List.Pairwise (fun a b => k b ≤ k a) (makeRun c l).1 := by
  match l with
  | [] => simp [makeRun]
  | [a] => simp [makeRun]
  | a :: b :: rest =>
    have hPa : P a := hP a (by simp)
    have hPb : P b := hP b (by simp)
    have hPrest : ∀ y ∈ rest, P y := fun y hy => hP y (by simp [hy])
    by_cases h : c b a < 0
    · simp only [makeRun, h, if_pos]
      have hchain : List.Chain (fun u v => c v u < 0) b (descRun c b rest).1 :=
        descRun_chain c b rest
      have hmem : ∀ y ∈ (descRun c b rest).1, P y := by
        intro y hy
        refine hPrest y ?_
        have hday := descRun_append c b rest
        exact hday ▸ List.mem_append_left _ hy
      have hchain2 : List.Chain (fun u v => k u < k v) b (descRun c b rest).1 :=
        chain_key_of_desc hk b _ hPb hmem hchain
      have hfull : List.Chain (fun u v => k u < k v) a (b :: (descRun c b rest).1) :=
        List.Chain.cons ((hk b a hPb hPa).1.mp h) hchain2
      haveI : IsTrans α (fun u v : α => k u < k v) := ⟨fun _ _ _ h1 h2 => lt_trans h1 h2⟩
      have hpw : List.Pairwise (fun u v => k u < k v) (a :: b :: (descRun c b rest).1) :=
        List.chain_iff_pairwise.mp hfull
      rw [List.pairwise_reverse]
      exact hpw.imp (fun hlt => le_of_lt hlt)
    · simp only [makeRun, h, if_neg, not_false_iff]
      have hchain : List.Chain (fun u v => 0 ≤ c v u) b (ascRun c b rest).1 :=
        ascRun_chain c b rest
      have hmem : ∀ y ∈ (ascRun c b rest).1, P y := by
        intro y hy
        refine hPrest y ?_
        have hday := ascRun_append c b rest
        exact hday ▸ List.mem_append_left _ hy
      have hchain2 : List.Chain (fun u v => k v ≤ k u) b (ascRun c b rest).1 :=
        chain_key_of_asc hk b _ hPb hmem hchain
      have hab : k b ≤ k a := le_of_not_lt (mt (hk b a hPb hPa).1.mpr h)
      have hfull : List.Chain (fun u v => k v ≤ k u) a (b :: (ascRun c b rest).1) :=
        List.Chain.cons hab hchain2
      haveI : IsTrans α (fun u v : α => k v ≤ k u) := ⟨fun _ _ _ h1 h2 => le_trans h2 h1⟩
      exact List.chain_iff_pairwise.mp hfull

/-- A list strictly increasing in the key keeps at most one element after
filtering on a fixed key value, so the filtered list equals its own
reverse. -/
theorem filter_reverse_of_strict {k : α → κ} {m : List α}
    (hpw : List.Pairwise (fun u v => k u < k v) m) (d : κ) :
    m.reverse.filter (fun a => decide (k a = d)) = m.filter (fun a => decide (k a = d)) := by
  rw [List.filter_reverse]
  have hsub : List.Pairwise (fun u v => k u < k v)
      (m.filter (fun a => decide (k a = d))) :=
    List.Pairwise.sublist (List.filter_sublist m) hpw
  cases hfl : m.filter (fun a => decide (k a = d)) with
  | nil => simp
  | cons x zs =>
    cases zs with
    | nil => simp
    | cons y ws =>
      exfalso
      rw [hfl] at hsub
      have hxy : k x < k y := List.rel_of_pairwise_cons hsub (by simp)
      have hxmem : x ∈ m.filter (fun a => decide (k a = d)) := by rw [hfl]; simp
      have hymem : y ∈ m.filter (fun a => decide (k a = d)) := by rw [hfl]; simp
      have hx : k x = d := by simpa using (List.of_mem_filter hxmem)
      have hy : k y = d := by simpa using (List.of_mem_filter hymem)
      rw [hx, hy] at hxy
      exact lt_irrefl d hxy

/-- Run detection preserves key-filtered subsequences: filtering the run and
the remainder on a fixed key value and concatenating gives the filtered
input.  For a descending run this uses that the reversed segment was
strictly increasing, hence contains at most one element of any key. -/
theorem makeRun_filter {c : α → α → Int} {k : α → κ} {P : α → Prop}
    (hk : CmpKeyed c k P) (l : List α) (hP : ∀ x ∈ l, P x) (d : κ) :
    (makeRun c l).1.filter (fun a => decide (k a = d)) ++
      (makeRun c l).2.filter (fun a => decide (k a = d))
      = l.filter (fun a => decide (k a = d)) := by
  match l with
  | [] => simp [makeRun]
  | [a] => simp [makeRun]
  | a :: b :: rest =>
    have hPa : P a := hP a (by simp)
    have hPb : P b := hP b (by simp)
    have hPrest : ∀ y ∈ rest, P y := fun y hy => hP y (by simp [hy])
    by_cases h : c b a < 0
    · simp only [makeRun, h, if_pos]
      have hchain : List.Chain (fun u v => c v u < 0) b (descRun c b rest).1 :=
        descRun_chain c b rest
      have hmem : ∀ y ∈ (descRun c b rest).1, P y := by
        intro y hy
        refine hPrest y ?_
        have hday := descRun_append c b rest
        exact hday ▸ List.mem_append_left _ hy
      have hchain2 : List.Chain (fun u v => k u < k v) b (descRun c b rest).1 :=
        chain_key_of_desc hk b _ hPb hmem hchain
      have hfull : List.Chain (fun u v => k u < k v) a (b :: (descRun c b rest).1) :=
        List.Chain.cons ((hk b a hPb hPa).1.mp h) hchain2
      haveI : IsTrans α (fun u v : α => k u < k v) := ⟨fun _ _ _ h1 h2 => lt_trans h1 h2⟩
      have hpw : List.Pairwise (fun u v => k u < k v) (a :: b :: (descRun c b rest).1) :=
        List.chain_iff_pairwise.mp hfull
      rw [filter_reverse_of_strict hpw d, ← List.filter_append]
      have hseg : (a :: b :: (descRun c b rest).1) ++ (descRun c b rest).2
          = a :: b :: rest := by
        simp [descRun_append]
      rw [hseg]
    · simp only [makeRun, h, if_neg, not_false_iff]
      rw [← List.filter_append]
      have hseg : (a :: b :: (ascRun c b rest).1) ++ (ascRun c b rest).2
          = a :: b :: rest := by
        simp [ascRun_append]
      rw [hseg]

/-- Specification of the binary-search loop: with sufficient fuel, sorted
prefix, and correct invariants at the borders, the returned index splits the
prefix into elements with keys at least the pivot key (before) and strictly
below it (after). -/
theorem binIdx_spec {c : α → α → Int} {k : α → κ} (pivot : α) (l : List α)
    (hpl : ∀ m ∈ l, (c pivot m < 0 ↔ k m < k pivot))
    (hs : List.Pairwise (fun a b => k b ≤ k a) l) :
    ∀ (fuel left right : Nat), right ≤ l.length → left ≤ right → right - left ≤ fuel →
      (∀ j, j < left → j < l.length → k pivot ≤ k (l.getD j pivot)) →
      (∀ j, right ≤ j → j < l.length → k (l.getD j pivot) < k pivot) →
      (binIdx c pivot l fuel left right ≤ l.length ∧
       (∀ j, j < binIdx c pivot l fuel left right → j < l.length →
          k pivot ≤ k (l.getD j pivot)) ∧
       (∀ j, binIdx c pivot l fuel left right ≤ j → j < l.length →
          k (l.getD j pivot) < k pivot)) := by
  have hmono : ∀ (i j : Nat), i ≤ j → (hj : j < l.length) →
      k (l.getD j pivot) ≤ k (l.getD i pivot) := by
    intro i j hij hj
    have hi : i < l.length := lt_of_le_of_lt hij hj
    rw [List.getD_eq_getElem l pivot hj, List.getD_eq_getElem l pivot hi]
    rcases Nat.lt_or_ge i j with hlt | hge
    · exact List.pairwise_iff_get.mp hs ⟨i, hi⟩ ⟨j, hj⟩ hlt
    · have : i = j := le_antisymm hij hge
      subst this
      exact le_refl _
  intro fuel
  induction fuel with
  | zero =>
    intro left right hrl hlr hfuel inv1 inv2
    have heq : left = right := by omega
    subst heq
    have hres : binIdx c pivot l 0 left left = left := rfl
    rw [hres]
    exact ⟨hrl, inv1, inv2⟩
  | succ fuel ih =>
    intro left right hrl hlr hfuel inv1 inv2
    by_cases hcase : left < right
    · have hmidlt : left + (right - left) / 2 < right := by omega
      have hmidge : left ≤ left + (right - left) / 2 := by omega
      have hmidlen : left + (right - left) / 2 < l.length := lt_of_lt_of_le hmidlt hrl
      have hmem : l.getD (left + (right - left) / 2) pivot ∈ l := by
        rw [List.getD_eq_getElem l pivot hmidlen]
        exact List.getElem_mem _
      by_cases hc : c pivot (l.getD (left + (right - left) / 2) pivot) < 0
      · have hklt : k (l.getD (left + (right - left) / 2) pivot) < k pivot :=
          (hpl _ hmem).mp hc
        have hres : binIdx c pivot l (fuel + 1) left right
            = binIdx c pivot l fuel left (left + (right - left) / 2) := by
          simp only [binIdx, hcase, if_pos, hc, if_pos]
        rw [hres]
        refine ih left (left + (right - left) / 2) (le_of_lt hmidlen) hmidge (by omega)
          inv1 ?_
        intro j hj hjlen
        exact lt_of_le_of_lt (hmono _ j hj hjlen) hklt
      · have hkge : k pivot ≤ k (l.getD (left + (right - left) / 2) pivot) :=
          le_of_not_lt (mt (hpl _ hmem).mpr hc)
        have hres : binIdx c pivot l (fuel + 1) left right
            = binIdx c pivot l fuel (left + (right - left) / 2 + 1) right := by
          simp only [binIdx, hcase, if_pos, hc, if_neg, not_false_iff]
        rw [hres]
        refine ih (left + (right - left) / 2 + 1) right hrl (by omega) (by omega)
          ?_ inv2
        intro j hj hjlen
        have hj2 : j ≤ left + (right - left) / 2 := by omega
        exact le_trans hkge (hmono j _ hj2 hmidlen)
    · have heq : left = right := by omega
      subst heq
      have hres : binIdx c pivot l (fuel + 1) left left = left := by
        simp [binIdx]
      rw [hres]
      exact ⟨le_trans hlr hrl, inv1, inv2⟩

/-- Binary insertion into a sorted prefix keeps it sorted, and appends the
pivot after all elements of equal key: filtering on the pivot key appends
the pivot at the end, filtering on any other key is unchanged. -/
theorem binInsert_sorted_filter {c : α → α → Int} {k : α → κ} (x : α) (l : List α)
    (hpl : ∀ m ∈ l, (c x m < 0 ↔ k m < k x))
    (hs : List.Pairwise (fun a b => k b ≤ k a) l) :
    List.Pairwise (fun a b => k b ≤ k a) (binInsert c l x) ∧
    (∀ d : κ, (binInsert c l x).filter (fun a => decide (k a = d)) =
      if k x = d then l.filter (fun a => decide (k a = d)) ++ [x]
      else l.filter (fun a => decide (k a = d))) := by
  have hspec := binIdx_spec x l hpl hs l.length 0 l.length le_rfl (Nat.zero_le _)
    (by omega) (by intro j hj _; omega) (by intro j hj hjlen; omega)
  set i := binIdx c x l l.length 0 l.length with hidef
  obtain ⟨hilen, hbefore, hafter⟩ := hspec
  have htake : ∀ a ∈ l.take i, k x ≤ k a := by
    intro a ha
    rw [List.mem_iff_get] at ha
    obtain ⟨n, hget⟩ := ha
    have hn0 := n.isLt
    have hlen : (List.take i l).length = min i l.length := List.length_take _ _
    have hn1 : (n : Nat) < i := by omega
    have hn2 : (n : Nat) < l.length := by omega
    have hval : a = l.getD (n : Nat) x := by
      rw [← hget, List.get_eq_getElem, List.getElem_take, List.getD_eq_getElem l x hn2]
    rw [hval]
    exact hbefore (n : Nat) hn1 hn2
  have hdrop : ∀ b ∈ l.drop i, k b < k x := by
    intro b hb
    rw [List.mem_iff_get] at hb
    obtain ⟨n, hget⟩ := hb
    have hn0 := n.isLt
    have hlen : (List.drop i l).length = l.length - i := List.length_drop _ _
    have hn2 : i + (n : Nat) < l.length := by omega
    have hval : b = l.getD (i + (n : Nat)) x := by
      rw [← hget, List.get_eq_getElem, List.getElem_drop, List.getD_eq_getElem l x hn2]
    rw [hval]
    exact hafter (i + (n : Nat)) (Nat.le_add_right _ _) hn2
  have hunfold : binInsert c l x = l.take i ++ x :: l.drop i := by
    rw [binInsert, hidef]
  constructor
  · rw [hunfold, List.pairwise_append]
    refine ⟨List.Pairwise.sublist (List.take_sublist _ _) hs, ?_, ?_⟩
    · rw [List.pairwise_cons]
      refine ⟨fun b hb => le_of_lt (hdrop b hb),
        List.Pairwise.sublist (List.drop_sublist _ _) hs⟩
    · intro a ha b hb
      rcases List.mem_cons.mp hb with rfl | hb2
      · exact htake a ha
      · exact le_trans (le_of_lt (hdrop b hb2)) (htake a ha)
  · intro d
    rw [hunfold, List.filter_append, List.filter_cons]
    by_cases hxd : k x = d
    · have hdropnil : (l.drop i).filter (fun a => decide (k a = d)) = [] := by
        rw [List.filter_eq_nil_iff]
        intro b hb
        simp only [decide_eq_true_eq]
        have := hdrop b hb
        rw [hxd] at this
        exact ne_of_lt this
      have hlf : l.filter (fun a => decide (k a = d))
          = (l.take i).filter (fun a => decide (k a = d)) := by
        conv_lhs => rw [← List.take_append_drop i l]
        rw [List.filter_append, hdropnil, List.append_nil]
      rw [if_pos (show decide (k x = d) = true by simp [hxd]), if_pos hxd,
        hdropnil, hlf]
    · rw [if_neg (show ¬ decide (k x = d) = true by simp [hxd]), if_neg hxd,
        ← List.filter_append, List.take_append_drop]

/-- Inserting all pending elements keeps the accumulator sorted and appends,
for each key value, the pending elements of that key in their pending
order. -/
theorem binInsertAll_sorted_filter {c : α → α → Int} {k : α → κ} {P : α → Prop}
    (hk : CmpKeyed c k P) :
    ∀ (pending run : List α), (∀ y ∈ run, P y) → (∀ y ∈ pending, P y) →
    List.Pairwise (fun a b => k b ≤ k a) run →
    (List.Pairwise (fun a b => k b ≤ k a) (binInsertAll c run pending) ∧
     ∀ d : κ, (binInsertAll c run pending).filter (fun a => decide (k a = d)) =
       run.filter (fun a => decide (k a = d)) ++
         pending.filter (fun a => decide (k a = d))) := by
  intro pending
  induction pending with
  | nil =>
    intro run _ _ hs
    exact ⟨hs, fun d => by simp [binInsertAll]⟩
  | cons x xs ih =>
    intro run hPrun hPpend hs
    have hPx : P x := hPpend x (by simp)
    have hPxs : ∀ y ∈ xs, P y := fun y hy => hPpend y (by simp [hy])
    have hpl : ∀ m ∈ run, (c x m < 0 ↔ k m < k x) :=
      fun m hm => (hk x m hPx (hPrun m hm)).1
    have hstep := binInsert_sorted_filter x run hpl hs
    have hPrun2 : ∀ y ∈ binInsert c run x, P y := by
      intro y hy
      rcases List.mem_cons.mp ((binInsert_perm c run x).mem_iff.mp hy) with rfl | hy2
      · exact hPx
      · exact hPrun y hy2
    have hfold : binInsertAll c run (x :: xs) = binInsertAll c (binInsert c run x) xs := rfl
    rw [hfold]
    obtain ⟨hsorted2, hfilters⟩ := ih (binInsert c run x) hPrun2 hPxs hstep.1
    refine ⟨hsorted2, ?_⟩
    intro d
    rw [hfilters d, hstep.2 d, List.filter_cons]
    by_cases hxd : k x = d
    · rw [if_pos hxd, if_pos (show decide (k x = d) = true by simp [hxd]),
        List.append_assoc]
      rfl
    · rw [if_neg hxd, if_neg (show ¬ decide (k x = d) = true by simp [hxd])]

/-- The modelled sort produces a list non-increasing in the key, whenever
the comparator is keyed on the elements of the input. -/
theorem v8Sort_sorted {c : α → α → Int} {k : α → κ} {P : α → Prop}
    (hk : CmpKeyed c k P) (l : List α) (hP : ∀ x ∈ l, P x) :
    List.Pairwise (fun a b => k b ≤ k a) (v8Sort c l) := by
  unfold v8Sort
  split
  case isTrue h =>
    match l, h with
    | [], _ => simp
    | [a], _ => simp
  case isFalse h =>
    have h1 := makeRun_fst_pairwise hk l hP
    have h2run : ∀ y ∈ (makeRun c l).1, P y := fun y hy => hP y (makeRun_fst_subset c l y hy)
    have h2rest : ∀ y ∈ (makeRun c l).2, P y := fun y hy => hP y (makeRun_snd_subset c l y hy)
    exact (binInsertAll_sorted_filter hk _ _ h2run h2rest h1).1

/-- The modelled sort is stable: for each key value, the subsequence of
elements with that key is unchanged. -/
theorem v8Sort_filter {c : α → α → Int} {k : α → κ} {P : α → Prop}
    (hk : CmpKeyed c k P) (l : List α) (hP : ∀ x ∈ l, P x) (d : κ) :
    (v8Sort c l).filter (fun a => decide (k a = d)) =
      l.filter (fun a => decide (k a = d)) := by
  unfold v8Sort
  split
  case isTrue h => rfl
  case isFalse h =>
    have h1 := makeRun_fst_pairwise hk l hP
    have h2run : ∀ y ∈ (makeRun c l).1, P y := fun y hy => hP y (makeRun_fst_subset c l y hy)
    have h2rest : ∀ y ∈ (makeRun c l).2, P y := fun y hy => hP y (makeRun_snd_subset c l y hy)
    rw [(binInsertAll_sorted_filter hk _ _ h2run h2rest h1).2 d]
    exact makeRun_filter hk l hP d

end SortKeyed

/-- Counting an element of a mapped list counts the preimages. -/
theorem count_map_eq_countP {α β : Type} [DecidableEq β] (f : α → β) (l : List α) (e : β) :
    (l.map f).count e = l.countP (fun x => decide (f x = e)) := by
  induction l with
  | nil => simp
  | cons x xs ih =>
    by_cases h : f x = e
    · simp [List.count_cons, List.countP_cons, ih, h]
    · simp [List.count_cons, List.countP_cons, ih, h]

/-- Counting in a `filterMap` counts source elements whose image satisfies
the predicate. -/
theorem countP_filterMap {α β : Type} (f : α → Option β) (p : β → Bool) (l : List α) :
    (l.filterMap f).countP p = l.countP (fun a => ((f a).map p).getD false) := by
  induction l with
  | nil => simp
  | cons x xs ih =>
    cases hfx : f x with
    | none => simp [List.filterMap_cons, hfx, List.countP_cons, ih]
    | some b => simp [List.filterMap_cons, hfx, List.countP_cons, ih]

/-- Elements mapped to `none` are invisible to `filterMap`: removing all
copies of such an element changes nothing. -/
theorem filterMap_filter_ne {α β : Type} [DecidableEq α] (f : α → Option β) (x : α)
    (hx : f x = none) (l : List α) :
    l.filterMap f = (l.filter (fun y => decide (y ≠ x))).filterMap f := by
  induction l with
  | nil => simp
  | cons a as ih =>
    by_cases ha : a = x
    · subst ha
      simp [List.filterMap_cons, hx, List.filter_cons, ih]
    · cases hfa : f a with
      | none => simp [List.filterMap_cons, hfa, List.filter_cons, ha, ih]
      | some b => simp [List.filterMap_cons, hfa, List.filter_cons, ha, ih]

/-- The date value of a post, with invalid dates mapped to zero; on posts
whose date parsed this is the comparison key of the post comparator. -/
def dateVal (p : Post) : Int := p.date.getD 0

/-- On posts with parsed dates, the post comparator is keyed by the date
value, descending. -/
theorem jsCompare_keyed :
    CmpKeyed jsCompare dateVal (fun p : Post => p.date.isSome = true) := by
  intro a b ha hb
  rcases a with ⟨ta, da, sa⟩
  rcases b with ⟨tb, db, sb⟩
  cases da with
  | none => simp at ha
  | some x =>
    cases db with
    | none => simp at hb
    | some y =>
      simp only [jsCompare, dateVal, Option.getD_some]
      constructor
      · omega
      · omega

/-- The year-group comparator is keyed by the year string, descending, with
no restriction on the elements. -/
theorem strCmpDesc_keyed :
    CmpKeyed (fun p q : String × List Cve => strCmpDesc p.1 q.1) Prod.fst
      (fun _ => True) := by
  intro a b _ _
  simp only [strCmpDesc]
  by_cases h1 : b.1 < a.1
  · rw [if_pos h1]
    exact ⟨iff_of_true (by norm_num) h1, iff_of_true (by norm_num) (le_of_lt h1)⟩
  · by_cases h2 : a.1 = b.1
    · rw [if_neg h1, if_pos h2]
      exact ⟨iff_of_false (by norm_num) h1,
        iff_of_true (by norm_num) (le_of_eq h2.symm)⟩
    · rw [if_neg h1, if_neg h2]
      have hab : a.1 < b.1 := lt_of_le_of_ne (le_of_not_lt h1) h2
      exact ⟨iff_of_false (by norm_num) h1,
        iff_of_false (by norm_num) (not_le.mpr hab)⟩

/-- Invariant of the year grouping: distinct keys, each group equal to the
filter of the consumed advisories on its key (hence in input order), and
every consumed advisory covered by some key. -/
def groupInv (acc : List (String × List Cve)) (consumed : List Cve) : Prop :=
  (acc.map Prod.fst).Nodup ∧
  (∀ p ∈ acc, p.2 = consumed.filter (fun cv => cv.date == p.1)) ∧
  (∀ cv ∈ consumed, cv.date ∈ acc.map Prod.fst)

/-- One grouping step preserves the invariant. -/
theorem insertCve_inv {acc : List (String × List Cve)} {consumed : List Cve}
    {cv : Cve} {acc' : List (String × List Cve)}
    (hinv : groupInv acc consumed) (hok : insertCve acc cv = .ok acc') :
    groupInv acc' (consumed ++ [cv]) := by
  obtain ⟨hnd, hgrp, hcov⟩ := hinv
  unfold insertCve at hok
  by_cases hfind : (acc.find? (fun p => p.1 == cv.date)).isSome
  · rw [if_pos hfind] at hok
    cases hok
    have hkeys : ((acc.map (fun p => if p.1 == cv.date then (p.1, p.2 ++ [cv]) else p)).map
        Prod.fst) = acc.map Prod.fst := by
      rw [List.map_map]
      refine List.map_congr_left ?_
      intro p _
      by_cases h : p.1 = cv.date
      · simp [h]
      · simp [h]
    refine ⟨by rw [hkeys]; exact hnd, ?_, ?_⟩
    · intro p hp
      rw [List.mem_map] at hp
      obtain ⟨q, hq, hqp⟩ := hp
      by_cases h : q.1 = cv.date
      · rw [if_pos (show (q.1 == cv.date) = true by simp [h])] at hqp
        rw [← hqp]
        show q.2 ++ [cv] = (consumed ++ [cv]).filter (fun c => c.date == q.1)
        rw [List.filter_append, ← hgrp q hq]
        have hcvf : [cv].filter (fun c => c.date == q.1) = [cv] := by
          simp [h]
        rw [hcvf]
      · rw [if_neg (show ¬ (q.1 == cv.date) = true by simp [h])] at hqp
        rw [← hqp]
        show q.2 = (consumed ++ [cv]).filter (fun c => c.date == q.1)
        rw [List.filter_append, ← hgrp q hq]
        have hcvf : [cv].filter (fun c => c.date == q.1) = [] := by
          rw [List.filter_eq_nil_iff]
          intro a ha
          rw [List.mem_singleton] at ha
          subst ha
          simp only [beq_iff_eq]
          exact fun hcd => h hcd.symm
        rw [hcvf, List.append_nil]
    · intro c hc
      rw [hkeys]
      rcases List.mem_append.mp hc with hc1 | hc2
      · exact hcov c hc1
      · rw [List.mem_singleton] at hc2
        subst hc2
        rw [List.find?_isSome] at hfind
        obtain ⟨p, hp, hpd⟩ := hfind
        rw [List.mem_map]
        exact ⟨p, hp, (eq_of_beq hpd).symm ▸ rfl⟩
  · rw [if_neg hfind] at hok
    by_cases hproto : cv.date ∈ protoProps
    · rw [if_pos hproto] at hok
      cases hok
    · rw [if_neg hproto] at hok
      cases hok
      have hnotkey : cv.date ∉ acc.map Prod.fst := by
        intro hmem
        rw [List.mem_map] at hmem
        obtain ⟨p, hp, hpd⟩ := hmem
        rw [Option.not_isSome_iff_eq_none, List.find?_eq_none] at hfind
        exact hfind p hp (by simp [hpd])
      refine ⟨?_, ?_, ?_⟩
      · rw [List.map_append]
        simp only [List.map_cons, List.map_nil]
        rw [List.nodup_append]
        exact ⟨hnd, List.nodup_singleton _, by simpa using hnotkey⟩
      · intro p hp
        rcases List.mem_append.mp hp with hp1 | hp2
        · rw [List.filter_append, ← hgrp p hp1]
          have hne : cv.date ≠ p.1 := by
            intro heq
            exact hnotkey (heq ▸ List.mem_map.mpr ⟨p, hp1, rfl⟩)
          have hcvf : [cv].filter (fun c => c.date == p.1) = [] := by
            simp [hne]
          rw [hcvf, List.append_nil]
        · rw [List.mem_singleton] at hp2
          subst hp2
          rw [List.filter_append]
          have hcons : consumed.filter (fun c => c.date == cv.date) = [] := by
            rw [List.filter_eq_nil_iff]
            intro c hc hbeq
            exact hnotkey (eq_of_beq hbeq ▸ hcov c hc)
          have hcvf : [cv].filter (fun c => c.date == cv.date) = [cv] := by simp
          rw [hcons, hcvf, List.nil_append]
      · intro c hc
        rw [List.map_append]
        rcases List.mem_append.mp hc with hc1 | hc2
        · exact List.mem_append_left _ (hcov c hc1)
        · rw [List.mem_singleton] at hc2
          subst hc2
          exact List.mem_append_right _ (by simp)

/-- The grouping fold preserves the invariant across the whole input. -/
theorem foldlM_insertCve_inv :
    ∀ (rest : List Cve) (acc : List (String × List Cve)) (consumed : List Cve)
      (g : List (String × List Cve)),
      groupInv acc consumed →
      List.foldlM insertCve acc rest = .ok g →
      groupInv g (consumed ++ rest) := by
  intro rest
  induction rest with
  | nil =>
    intro acc consumed g hinv hok
    simp only [List.foldlM_nil] at hok
    cases hok
    simpa using hinv
  | cons cv cvs ih =>
    intro acc consumed g hinv hok
    rw [List.foldlM_cons] at hok
    cases hstep : insertCve acc cv with
    | error e =>
      rw [hstep] at hok
      simp only [Bind.bind, Except.bind] at hok
      exact Except.noConfusion hok
    | ok acc' =>
      rw [hstep] at hok
      simp only [Bind.bind, Except.bind] at hok
      have hinv' := insertCve_inv hinv hstep
      have hres := ih acc' (consumed ++ [cv]) g hinv' hok
      simpa [List.append_assoc] using hres

/-- A successful grouping satisfies the full invariant over the input. -/
theorem groupCvesByYear_spec {cves : List Cve} {g : List (String × List Cve)}
    (hg : groupCvesByYear cves = .ok g) : groupInv g cves := by
  have h0 : groupInv [] [] := ⟨by simp, by simp, by simp⟩
  have := foldlM_insertCve_inv cves [] [] g h0 hg
  simpa using this

/-- When no year field collides with an `Object.prototype` property, the
grouping succeeds. -/
theorem groupCvesByYear_ok {cves : List Cve}
    (h : ∀ cv ∈ cves, cv.date ∉ protoProps) :
    ∃ g, groupCvesByYear cves = .ok g := by
  unfold groupCvesByYear
  suffices haux : ∀ (l : List Cve), (∀ cv ∈ l, cv.date ∉ protoProps) →
      ∀ acc, ∃ g, List.foldlM insertCve acc l = .ok g by
    exact haux cves h []
  intro l
  induction l with
  | nil => intro _ acc; exact ⟨acc, rfl⟩
  | cons cv cvs ih =>
    intro hl acc
    have hstep : ∃ acc', insertCve acc cv = .ok acc' := by
      unfold insertCve
      by_cases hfind : (acc.find? (fun p => p.1 == cv.date)).isSome
      · rw [if_pos hfind]; exact ⟨_, rfl⟩
      · rw [if_neg hfind, if_neg (hl cv (by simp))]
        exact ⟨_, rfl⟩
    obtain ⟨acc', hacc'⟩ := hstep
    obtain ⟨g, hg⟩ := ih (fun c hc => hl c (by simp [hc])) acc'
    refine ⟨g, ?_⟩
    rw [List.foldlM_cons, hacc']
    simpa only [Bind.bind, Except.bind] using hg

/-- A sum of point masses over a distinct key list picks out the one key. -/
theorem sum_if_eq_of_nodup {d : String} (n : Nat) :
    ∀ (keys : List String), keys.Nodup → d ∈ keys →
      (keys.map (fun y => if d = y then n else 0)).sum = n := by
  intro keys
  induction keys with
  | nil => intro _ h; cases h
  | cons y ys ih =>
    intro hnd hmem
    rw [List.nodup_cons] at hnd
    rcases List.mem_cons.mp hmem with rfl | hmem2
    · have hzero : (ys.map (fun z => if d = z then n else 0)).sum = 0 := by
        rw [List.sum_eq_zero]
        intro x hx
        rw [List.mem_map] at hx
        obtain ⟨z, hz, hzx⟩ := hx
        have : d ≠ z := fun h => hnd.1 (h ▸ hz)
        rw [← hzx, if_neg this]
      simp only [List.map_cons, List.sum_cons]
      rw [if_pos trivial, hzero]
      omega
    · have hne : d ≠ y := fun h => hnd.1 (h ▸ hmem2)
      simp only [List.map_cons, List.sum_cons]
      rw [if_neg hne, ih hnd.2 hmem2]
      omega

/-- The groups of a partition-style association list flatten back to a
permutation of the input collection. -/
theorem flatten_groups_perm (cves : List Cve) (ys : List (String × List Cve))
    (hnd : (ys.map Prod.fst).Nodup)
    (hgrp : ∀ p ∈ ys, p.2 = cves.filter (fun cv => cv.date == p.1))
    (hcov : ∀ cv ∈ cves, cv.date ∈ ys.map Prod.fst) :
    ((ys.map Prod.snd).flatten).Perm cves := by
  rw [List.perm_iff_count]
  intro a
  rw [List.count_eq_countP, List.count_eq_countP, List.countP_join]
  have hmaps : (ys.map Prod.snd).map (List.countP (fun x => x == a))
      = ys.map (fun p => List.countP (fun x => x == a) p.2) := by
    rw [List.map_map]
    rfl
  rw [hmaps]
  have hterm : ∀ p ∈ ys, List.countP (fun x => x == a) p.2
      = if a.date = p.1 then List.countP (fun x => x == a) cves else 0 := by
    intro p hp
    rw [hgrp p hp, List.countP_filter]
    by_cases had : a.date = p.1
    · rw [if_pos had]
      refine List.countP_congr ?_
      intro x _
      constructor
      · intro hb
        rw [Bool.and_eq_true] at hb
        exact hb.1
      · intro hb
        rw [Bool.and_eq_true]
        refine ⟨hb, ?_⟩
        have : x = a := by simpa using hb
        simp [this, had]
    · rw [if_neg had, List.countP_eq_zero]
      intro x _
      rw [Bool.and_eq_true]
      rintro ⟨hxa, hxd⟩
      have hx : x = a := by simpa using hxa
      have hd : x.date = p.1 := by simpa using hxd
      exact had (hx ▸ hd)
  rw [List.map_congr_left hterm]
  by_cases hmem : a ∈ cves
  · have hcnt : ys.map (fun p => if a.date = p.1 then List.countP (fun x => x == a) cves else 0)
        = (ys.map Prod.fst).map (fun y => if a.date = y then List.countP (fun x => x == a) cves else 0) := by
      rw [List.map_map]
      rfl
    rw [hcnt]
    exact sum_if_eq_of_nodup _ _ hnd (hcov a hmem)
  · have hzero : List.countP (fun x => x == a) cves = 0 := by
      rw [List.countP_eq_zero]
      intro x hx hbeq
      have : x = a := by simpa using hbeq
      exact hmem (this ▸ hx)
    rw [hzero]
    rw [List.sum_eq_zero]
    intro x hx
    rw [List.mem_map] at hx
    obtain ⟨p, _, hpx⟩ := hx
    rw [← hpx]
    split <;> rfl

/-- Substring test, used to ask whether a URL occurs in a rendered
fragment. -/
def containsSub (s sub : String) : Bool :=
  (firstSub sub.data s.data).isSome

/-- Modelled from the spec (not the source): drop a trailing `.md` extension
from a path, as the specified slug derivation describes. -/
def dropMdExt (cs : List Char) : List Char :=
  if ['.', 'm', 'd'].isSuffixOf cs then cs.take (cs.length - 3) else cs

/-- Modelled from the spec (not the source): the slug as the specification
words it — derived from the relative file path, lowercased, with the `.md`
extension removed and path separators normalized to forward slashes. -/
def specSlugOf (path : String) : String :=
  String.mk
    (((dropMdExt path.data).map (fun c => if c = '\\' then '/' else c)).map Char.toLower)

/-- Modelled from the spec (not the source): the post URL the claim
describes — the fixed site prefix concatenated with the specified slug. -/
def specUrlOf (path : String) : String :=
  "https://jomar.fr/blog/" ++ specSlugOf path

/-- A year string of ASCII digits is not an `Object.prototype` property
name. -/
theorem digit_year_not_proto {y : String} (h : y.data.all Char.isDigit = true) :
    y ∉ protoProps := by
  intro hmem
  simp only [protoProps, List.mem_cons, List.not_mem_nil, or_false] at hmem
  rcases hmem with rfl | rfl | rfl | rfl | rfl | rfl | rfl | rfl | rfl | rfl | rfl | rfl <;>
    exact absurd h (by decide)

/-- The sorted year groups are strictly descending in the year key whenever
the unsorted groups had distinct keys. -/
theorem sortedYears_strict {g : List (String × List Cve)}
    (hnd : (g.map Prod.fst).Nodup) :
    List.Pairwise (fun p q : String × List Cve => q.1 < p.1) (sortedYears g) := by
  have hsorted := v8Sort_sorted strCmpDesc_keyed g (fun _ _ => trivial)
  have hperm : (sortedYears g).Perm g := v8Sort_perm _ g
  have hnd2 : ((sortedYears g).map Prod.fst).Nodup :=
    ((hperm.map Prod.fst).nodup_iff).mpr hnd
  rw [List.Nodup, List.pairwise_map] at hnd2
  have hcomb := List.Pairwise.and hsorted hnd2
  refine hcomb.imp ?_
  rintro p q ⟨hle, hne⟩
  exact lt_of_le_of_ne hle (Ne.symm hne)

/-- On a list of posts whose dates all parsed, filtering on a date value and
filtering on the date key agree. -/
theorem filter_date_eq {l : List Post} (hl : ∀ p ∈ l, p.date.isSome = true) (d : Int) :
    l.filter (fun p => decide (p.date = some d))
      = l.filter (fun p => decide (dateVal p = d)) := by
  refine List.filter_congr ?_
  intro p hp
  cases hdp : p.date with
  | none =>
    have := hl p hp
    rw [hdp] at this
    cases this
  | some x => simp [dateVal, hdp]

/-- The count of a rendered entry in the output equals the number of
discovered files whose record renders to that entry. -/
theorem postEntries_count (files : List (String × String)) (e : String) :
    (postEntries files).count e
      = files.countP (fun f => decide ((parseFile f).map postEntryOf = some e)) := by
  unfold postEntries blogPostsOf
  rw [count_map_eq_countP]
  rw [(v8Sort_perm jsCompare (postRecords files)).countP_eq]
  unfold postRecords
  rw [countP_filterMap]
  refine List.countP_congr ?_
  intro f _
  cases hf : parseFile f with
  | none => simp [hf]
  | some p => simp [hf]

/-- Reduction of a successful run: when the advisory collection loads and
groups, the output document is the template around the rendered post entries
and year blocks. -/
theorem generateReadme_ok {cves : List Cve} {g : List (String × List Cve)}
    (files : List (String × String)) (hg : groupCvesByYear cves = .ok g) :
    generateReadme (some cves) files
      = .ok (tplHeader ++ String.join ((blogPostsOf files).map postEntryOf) ++ tplMiddle ++
          String.join ((sortedYears g).map yearBlock) ++ tplFooter) := by
  simp only [generateReadme]
  rw [hg]


/-- Claim C5: if the advisory collection at the fixed location is unreadable
or malformed, the run aborts with a fatal error (modelled as the error
result, i.e. a nonzero process exit) and no output document is produced
(no write is reached). -/
theorem claim5_theorem (files : List (String × String)) :
    generateReadme none files
      = .error "SyntaxError: cannot read or parse src/data/cves.json" := rfl

/-- Claim C9: slug derivation removes only the first occurrence of the
substring `.md` anywhere in the relative path, not specifically the trailing
extension: for the path `2025/x.md.md` the slug still ends in `.md` and the
generated post URL embeds that residual extension. -/
theorem claim9_theorem :
    (∀ path : String, slugOf path
        = String.mk ((removeFirstMd path.data).map (fun c => if c = '\\' then '/' else c))) ∧
    slugOf "2025/x.md.md" = "2025/x.md" ∧
    ['.', 'm', 'd'].isSuffixOf (slugOf "2025/x.md.md").data = true ∧
    postEntries [("2025/x.md.md", "---\ntitle: \x22T\x22\ndate: 2025-04-12\n---\n")]
      = ["  * [T](https://jomar.fr/blog/2025/x.md/)\n"] :=
  ⟨fun _ => rfl, rfl, rfl, rfl⟩

/-- Claim C2 counterexample: a document whose header block lacks both the
title and the date field is not excluded, contradicting the claim.  The
record is built with the empty title and an invalid date, and is rendered
into the output. -/
theorem claim2_counterexample :
    parsePost "p.md" "---\nkey: value\n---\n" = some ⟨"", none, "p"⟩ ∧
    postEntries [("p.md", "---\nkey: value\n---\n")]
      = ["  * [](https://jomar.fr/blog/p/)\n"] := ⟨rfl, rfl⟩

/-- Claim C2 (amended): a document lacking a leading header block is
excluded from the output and does not abort the run; a document with a
header block is always included as a record, with the title defaulting to
the empty string and the date to an invalid date when extraction fails. -/
theorem claim2_theorem (files : List (String × String)) (cves : List Cve)
    (g : List (String × List Cve)) (path content : String)
    (hg : groupCvesByYear cves = .ok g) :
    (frontmatterOf content = none →
      parsePost path content = none ∧
      blogPostsOf files
        = blogPostsOf (files.filter (fun f => decide (f ≠ (path, content))))) ∧
    (∀ fm, frontmatterOf content = some fm →
      parsePost path content
        = some ⟨(extractTitle fm).getD "", jsDateParse ((extractDate fm).getD ""),
            slugOf path⟩) ∧
    (∃ out, generateReadme (some cves) files = .ok out) := by
  refine ⟨?_, ?_, ?_⟩
  · intro hfm
    have hnone : parsePost path content = none := by
      unfold parsePost
      rw [hfm]
    refine ⟨hnone, ?_⟩
    unfold blogPostsOf postRecords
    rw [filterMap_filter_ne parseFile (path, content) hnone files]
  · intro fm hfm
    unfold parsePost
    rw [hfm]
  · exact ⟨_, generateReadme_ok files hg⟩

/-- Claim C2 witness: the amended claim evaluated at a headerless document
and a one-advisory collection. -/
theorem claim2_witness :
    groupCvesByYear [⟨"CVE-2023-0001", "https://example.com/a", "XSS", "App", "2023"⟩]
      = .ok [("2023", [⟨"CVE-2023-0001", "https://example.com/a", "XSS", "App", "2023"⟩])] ∧
    ((frontmatterOf "plain text" = none →
      parsePost "p.md" "plain text" = none ∧
      blogPostsOf [("p.md", "plain text")]
        = blogPostsOf ([("p.md", "plain text")].filter
            (fun f => decide (f ≠ ("p.md", "plain text"))))) ∧
    (∀ fm, frontmatterOf "plain text" = some fm →
      parsePost "p.md" "plain text"
        = some ⟨(extractTitle fm).getD "", jsDateParse ((extractDate fm).getD ""),
            slugOf "p.md"⟩) ∧
    (∃ out, generateReadme
        (some [⟨"CVE-2023-0001", "https://example.com/a", "XSS", "App", "2023"⟩])
        [("p.md", "plain text")] = .ok out)) :=
  ⟨rfl, claim2_theorem [("p.md", "plain text")]
    [⟨"CVE-2023-0001", "https://example.com/a", "XSS", "App", "2023"⟩]
    [("2023", [⟨"CVE-2023-0001", "https://example.com/a", "XSS", "App", "2023"⟩])]
    "p.md" "plain text" rfl⟩

/-- Claim C6: a document whose content does not begin with a recognized
header block yields no post record, all its copies are invisible to the
output, and the run still completes, producing the document with the
remaining posts. -/
theorem claim6_theorem (files : List (String × String)) (cves : List Cve)
    (g : List (String × List Cve)) (path content : String)
    (hmem : (path, content) ∈ files)
    (hfm : frontmatterOf content = none)
    (hg : groupCvesByYear cves = .ok g) :
    parsePost path content = none ∧
    postEntries files
      = postEntries (files.filter (fun f => decide (f ≠ (path, content)))) ∧
    (∃ out, generateReadme (some cves) files = .ok out) := by
  have hnone : parsePost path content = none := by
    unfold parsePost
    rw [hfm]
  refine ⟨hnone, ?_, ?_⟩
  · unfold postEntries blogPostsOf postRecords
    rw [filterMap_filter_ne parseFile (path, content) hnone files]
  · exact ⟨_, generateReadme_ok files hg⟩

/-- Claim C6 witness: the claim evaluated at a two-file list whose first
file has no header block. -/
theorem claim6_witness :
    (("broken.md", "no header here") ∈
      [("broken.md", "no header here"),
       ("ok.md", "---\ntitle: \x22T\x22\ndate: 2025-04-12\n---\n")]) ∧
    frontmatterOf "no header here" = none ∧
    groupCvesByYear [⟨"CVE-2024-0002", "https://example.com/b", "SQLi", "Shop", "2024"⟩]
      = .ok [("2024", [⟨"CVE-2024-0002", "https://example.com/b", "SQLi", "Shop", "2024"⟩])] ∧
    (parsePost "broken.md" "no header here" = none ∧
     postEntries [("broken.md", "no header here"),
       ("ok.md", "---\ntitle: \x22T\x22\ndate: 2025-04-12\n---\n")]
       = postEntries ([("broken.md", "no header here"),
           ("ok.md", "---\ntitle: \x22T\x22\ndate: 2025-04-12\n---\n")].filter
             (fun f => decide (f ≠ ("broken.md", "no header here")))) ∧
     (∃ out, generateReadme
         (some [⟨"CVE-2024-0002", "https://example.com/b", "SQLi", "Shop", "2024"⟩])
         [("broken.md", "no header here"),
          ("ok.md", "---\ntitle: \x22T\x22\ndate: 2025-04-12\n---\n")] = .ok out)) :=
  ⟨by simp, rfl, rfl,
    claim6_theorem _ _ _ "broken.md" "no header here" (by simp) rfl rfl⟩

/-- Claim C7: a document with a header block whose title extraction fails or
whose date fails to parse still yields a record, with title defaulting to
the empty string and date to an invalid date, and that record is rendered
into the post entries rather than being rejected. -/
theorem claim7_theorem (files : List (String × String)) (cves : List Cve)
    (g : List (String × List Cve)) (path content fm : String)
    (hmem : (path, content) ∈ files)
    (hfm : frontmatterOf content = some fm)
    (hg : groupCvesByYear cves = .ok g) :
    ∃ p : Post, parsePost path content = some p ∧
      p.slug = slugOf path ∧
      (extractTitle fm = none → p.title = "") ∧
      (jsDateParse ((extractDate fm).getD "") = none → p.date = none) ∧
      postEntryOf p ∈ postEntries files ∧
      (∃ out, generateReadme (some cves) files = .ok out) := by
  refine ⟨⟨(extractTitle fm).getD "", jsDateParse ((extractDate fm).getD ""), slugOf path⟩,
    ?_, rfl, ?_, ?_, ?_, ?_⟩
  · unfold parsePost
    rw [hfm]
  · intro ht
    simp [ht]
  · intro hd
    simpa using hd
  · have hrec : (⟨(extractTitle fm).getD "", jsDateParse ((extractDate fm).getD ""),
        slugOf path⟩ : Post) ∈ postRecords files := by
      unfold postRecords
      rw [List.mem_filterMap]
      refine ⟨(path, content), hmem, ?_⟩
      unfold parseFile parsePost
      rw [hfm]
    unfold postEntries
    exact List.mem_map.mpr ⟨_, (v8Sort_perm jsCompare (postRecords files)).mem_iff.mpr hrec,
      rfl⟩
  · exact ⟨_, generateReadme_ok files hg⟩

/-- Claim C7 witness: the claim evaluated at a document whose header block
has neither a quoted title nor a date field. -/
theorem claim7_witness :
    (("p.md", "---\nkey: value\n---\n") ∈ [("p.md", "---\nkey: value\n---\n")]) ∧
    frontmatterOf "---\nkey: value\n---\n" = some "key: value" ∧
    groupCvesByYear [⟨"CVE-2022-9", "https://example.com/c", "RCE", "Srv", "2022"⟩]
      = .ok [("2022", [⟨"CVE-2022-9", "https://example.com/c", "RCE", "Srv", "2022"⟩])] ∧
    (∃ p : Post, parsePost "p.md" "---\nkey: value\n---\n" = some p ∧
      p.slug = slugOf "p.md" ∧
      (extractTitle "key: value" = none → p.title = "") ∧
      (jsDateParse ((extractDate "key: value").getD "") = none → p.date = none) ∧
      postEntryOf p ∈ postEntries [("p.md", "---\nkey: value\n---\n")] ∧
      (∃ out, generateReadme
          (some [⟨"CVE-2022-9", "https://example.com/c", "RCE", "Srv", "2022"⟩])
          [("p.md", "---\nkey: value\n---\n")] = .ok out)) :=
  ⟨by simp, rfl, rfl,
    claim7_theorem _ _ _ "p.md" "---\nkey: value\n---\n" "key: value" (by simp) rfl rfl⟩

/-- Claim C1 counterexample: for the discovered file `A.md` with a quoted
title and a parseable date, the claimed URL (fixed prefix plus lowercased,
extension-stripped slug) is `https://jomar.fr/blog/a`, but the single
rendered entry carries `https://jomar.fr/blog/A/` — the code neither
lowercases the slug nor omits the trailing slash — so the claimed URL
occurs nowhere in the entry. -/
theorem claim1_counterexample :
    parsePost "A.md" "---\ntitle: \x22T\x22\ndate: 2025-04-12\n---\nbody"
      = some ⟨"T", some 1744416000000, "A"⟩ ∧
    postEntries [("A.md", "---\ntitle: \x22T\x22\ndate: 2025-04-12\n---\nbody")]
      = ["  * [T](https://jomar.fr/blog/A/)\n"] ∧
    specUrlOf "A.md" = "https://jomar.fr/blog/a" ∧
    containsSub "  * [T](https://jomar.fr/blog/A/)\n" (specUrlOf "A.md") = false :=
  ⟨rfl, rfl, rfl, rfl⟩

/-- Claim C1 (amended): for every discovered markdown file whose header
block contains a quoted title and a parseable date, the output contains a
post entry for it whose URL is the fixed site prefix concatenated with the
slug and a trailing slash, where the slug is the relative path with the
first occurrence of `.md` removed and backslashes normalized to `/` (with
no lowercasing); the number of identical entries in the output equals the
number of discovered files producing that same entry, hence exactly one
when this file is the unique producer. -/
theorem claim1_theorem (files : List (String × String))
    (path content fm t ds : String) (d : Int)
    (hmem : (path, content) ∈ files)
    (hfm : frontmatterOf content = some fm)
    (ht : extractTitle fm = some t)
    (hds : extractDate fm = some ds)
    (hd : jsDateParse ds = some d) :
    parsePost path content = some ⟨t, some d, slugOf path⟩ ∧
    postEntryOf ⟨t, some d, slugOf path⟩
      = "  * [" ++ t ++ "](https://jomar.fr/blog/" ++ slugOf path ++ "/)\n" ∧
    postEntryOf ⟨t, some d, slugOf path⟩ ∈ postEntries files ∧
    (postEntries files).count (postEntryOf ⟨t, some d, slugOf path⟩)
      = files.countP (fun f =>
          decide ((parseFile f).map postEntryOf
            = some (postEntryOf ⟨t, some d, slugOf path⟩))) := by
  have hparse : parsePost path content = some ⟨t, some d, slugOf path⟩ := by
    unfold parsePost
    rw [hfm]
    simp only [ht, hds, Option.getD_some, hd]
  refine ⟨hparse, rfl, ?_, postEntries_count files _⟩
  have hrec : (⟨t, some d, slugOf path⟩ : Post) ∈ postRecords files := by
    unfold postRecords
    rw [List.mem_filterMap]
    exact ⟨(path, content), hmem, hparse⟩
  unfold postEntries
  exact List.mem_map.mpr
    ⟨_, (v8Sort_perm jsCompare (postRecords files)).mem_iff.mpr hrec, rfl⟩

/-- Claim C1 witness: the amended claim evaluated at a single discovered
file with a quoted title and a parseable date. -/
theorem claim1_witness :
    (("a.md", "---\ntitle: \x22T\x22\ndate: 2025-04-12\n---\nbody") ∈
      [("a.md", "---\ntitle: \x22T\x22\ndate: 2025-04-12\n---\nbody")]) ∧
    frontmatterOf "---\ntitle: \x22T\x22\ndate: 2025-04-12\n---\nbody"
      = some "title: \x22T\x22\ndate: 2025-04-12" ∧
    extractTitle "title: \x22T\x22\ndate: 2025-04-12" = some "T" ∧
    extractDate "title: \x22T\x22\ndate: 2025-04-12" = some "2025-04-12" ∧
    jsDateParse "2025-04-12" = some 1744416000000 ∧
    (parsePost "a.md" "---\ntitle: \x22T\x22\ndate: 2025-04-12\n---\nbody"
        = some ⟨"T", some 1744416000000, slugOf "a.md"⟩ ∧
     postEntryOf ⟨"T", some 1744416000000, slugOf "a.md"⟩
        = "  * [" ++ "T" ++ "](https://jomar.fr/blog/" ++ slugOf "a.md" ++ "/)\n" ∧
     postEntryOf ⟨"T", some 1744416000000, slugOf "a.md"⟩
        ∈ postEntries [("a.md", "---\ntitle: \x22T\x22\ndate: 2025-04-12\n---\nbody")] ∧
     (postEntries [("a.md", "---\ntitle: \x22T\x22\ndate: 2025-04-12\n---\nbody")]).count
          (postEntryOf ⟨"T", some 1744416000000, slugOf "a.md"⟩)
        = [("a.md", "---\ntitle: \x22T\x22\ndate: 2025-04-12\n---\nbody")].countP
            (fun f => decide ((parseFile f).map postEntryOf
              = some (postEntryOf ⟨"T", some 1744416000000, slugOf "a.md"⟩)))) :=
  ⟨by simp, rfl, rfl, rfl, rfl,
    claim1_theorem [("a.md", "---\ntitle: \x22T\x22\ndate: 2025-04-12\n---\nbody")]
      "a.md" "---\ntitle: \x22T\x22\ndate: 2025-04-12\n---\nbody"
      "title: \x22T\x22\ndate: 2025-04-12" "T" "2025-04-12" 1744416000000
      (by simp) rfl rfl rfl rfl⟩

/-- Claim C3 counterexample: with three discovered posts dated 2025-01-01,
unparseable, and 2025-01-02 in that order, the comparator returns zero
against the invalid middle date, V8 run detection sees a single
already-ascending run, and the output keeps the input order — the parsed
dates increase across the output list, so it is not non-increasing. -/
theorem claim3_counterexample :
    (blogPostsOf [("a.md", "---\ntitle: \x22A\x22\ndate: 2025-01-01\n---\n"),
        ("b.md", "---\ntitle: \x22B\x22\ndate: zzz\n---\n"),
        ("c.md", "---\ntitle: \x22C\x22\ndate: 2025-01-02\n---\n")]).map Post.date
      = [some 1735689600000, none, some 1735776000000] ∧
    (1735689600000 : Int) < 1735776000000 := ⟨rfl, by norm_num⟩

/-- Claim C3 (amended): for every list of discovered posts whose dates all
parse, the output is non-increasing by parsed date across the full list,
and ties between equal dates are broken by input encounter order (for every
date value, the subsequence of posts carrying it is unchanged). -/
theorem claim3_theorem (files : List (String × String))
    (h : ∀ p ∈ postRecords files, p.date.isSome = true) :
    List.Pairwise (fun a b => dateVal b ≤ dateVal a) (blogPostsOf files) ∧
    ∀ d : Int, (blogPostsOf files).filter (fun p => decide (p.date = some d))
      = (postRecords files).filter (fun p => decide (p.date = some d)) := by
  constructor
  · exact v8Sort_sorted jsCompare_keyed (postRecords files) h
  · intro d
    have hmem2 : ∀ p ∈ blogPostsOf files, p.date.isSome = true := fun p hp =>
      h p ((v8Sort_perm jsCompare (postRecords files)).mem_iff.mp hp)
    rw [filter_date_eq hmem2 d, filter_date_eq h d]
    exact v8Sort_filter jsCompare_keyed (postRecords files) h d

/-- Claim C3 witness: the amended claim evaluated at two discovered posts
with parseable dates in ascending order. -/
theorem claim3_witness :
    (∀ p ∈ postRecords [("a.md", "---\ntitle: \x22A\x22\ndate: 2025-01-01\n---\n"),
        ("c.md", "---\ntitle: \x22C\x22\ndate: 2025-01-02\n---\n")],
      p.date.isSome = true) ∧
    (List.Pairwise (fun a b => dateVal b ≤ dateVal a)
      (blogPostsOf [("a.md", "---\ntitle: \x22A\x22\ndate: 2025-01-01\n---\n"),
        ("c.md", "---\ntitle: \x22C\x22\ndate: 2025-01-02\n---\n")]) ∧
    ∀ d : Int, (blogPostsOf [("a.md", "---\ntitle: \x22A\x22\ndate: 2025-01-01\n---\n"),
        ("c.md", "---\ntitle: \x22C\x22\ndate: 2025-01-02\n---\n")]).filter
          (fun p => decide (p.date = some d))
      = (postRecords [("a.md", "---\ntitle: \x22A\x22\ndate: 2025-01-01\n---\n"),
          ("c.md", "---\ntitle: \x22C\x22\ndate: 2025-01-02\n---\n")]).filter
          (fun p => decide (p.date = some d))) :=
  ⟨by decide, claim3_theorem _ (by decide)⟩

/-- Claim C4 counterexample: an advisory whose literal year field is
`valueOf` collides with an `Object.prototype` property; the grouping throws
a `TypeError` and the run aborts, so the advisory appears under no heading
at all. -/
theorem claim4_counterexample :
    groupCvesByYear [⟨"CVE-1", "https://example.com/a", "RCE", "App", "valueOf"⟩]
      = .error "TypeError: acc[year].push is not a function" ∧
    generateReadme (some [⟨"CVE-1", "https://example.com/a", "RCE", "App", "valueOf"⟩]) []
      = .error "TypeError: acc[year].push is not a function" := ⟨rfl, rfl⟩

/-- Claim C4 (amended): for every loaded advisory collection whose year
fields are ASCII digit strings (avoiding the built-in object property
collision, and making locale-aware comparison coincide with lexicographic
order), each advisory appears under the heading equal to its literal year
field; all advisories sharing a year appear under a single heading in their
original input order; and the year headings are strictly descending in
lexicographic order. -/
theorem claim4_theorem (cves : List Cve)
    (hdig : ∀ cv ∈ cves, cv.date.data.all Char.isDigit = true) :
    ∃ g, groupCvesByYear cves = .ok g ∧
      List.Pairwise (fun p q : String × List Cve => q.1 < p.1) (sortedYears g) ∧
      (∀ p ∈ sortedYears g, p.2 = cves.filter (fun cv => cv.date == p.1)) ∧
      (∀ cv ∈ cves, ∃ p, p ∈ sortedYears g ∧ p.1 = cv.date ∧ cv ∈ p.2) ∧
      (∀ files, generateReadme (some cves) files
        = .ok (tplHeader ++ String.join ((blogPostsOf files).map postEntryOf) ++
            tplMiddle ++ String.join ((sortedYears g).map yearBlock) ++ tplFooter)) := by
  obtain ⟨g, hg⟩ :=
    groupCvesByYear_ok (fun cv hcv => digit_year_not_proto (hdig cv hcv))
  obtain ⟨hnd, hgrp, hcov⟩ := groupCvesByYear_spec hg
  have hperm : (sortedYears g).Perm g := v8Sort_perm _ g
  refine ⟨g, hg, sortedYears_strict hnd, ?_, ?_, fun files => generateReadme_ok files hg⟩
  · exact fun p hp => hgrp p (hperm.mem_iff.mp hp)
  · intro cv hcv
    have hkey : cv.date ∈ (sortedYears g).map Prod.fst :=
      (hperm.map Prod.fst).mem_iff.mpr (hcov cv hcv)
    rw [List.mem_map] at hkey
    obtain ⟨p, hp, hpd⟩ := hkey
    refine ⟨p, hp, hpd, ?_⟩
    rw [hgrp p (hperm.mem_iff.mp hp)]
    rw [List.mem_filter]
    exact ⟨hcv, by simp [hpd]⟩

/-- Claim C4 witness: the amended claim evaluated at a three-advisory
collection spanning two digit years. -/
theorem claim4_witness :
    (∀ cv ∈ [(⟨"CVE-2023-1", "https://example.com/1", "XSS", "A", "2023"⟩ : Cve),
        ⟨"CVE-2024-1", "https://example.com/2", "SQLi", "B", "2024"⟩,
        ⟨"CVE-2023-2", "https://example.com/3", "CSRF", "C", "2023"⟩],
      cv.date.data.all Char.isDigit = true) ∧
    (∃ g, groupCvesByYear [(⟨"CVE-2023-1", "https://example.com/1", "XSS", "A", "2023"⟩ : Cve),
        ⟨"CVE-2024-1", "https://example.com/2", "SQLi", "B", "2024"⟩,
        ⟨"CVE-2023-2", "https://example.com/3", "CSRF", "C", "2023"⟩] = .ok g ∧
      List.Pairwise (fun p q : String × List Cve => q.1 < p.1) (sortedYears g) ∧
      (∀ p ∈ sortedYears g,
        p.2 = [(⟨"CVE-2023-1", "https://example.com/1", "XSS", "A", "2023"⟩ : Cve),
          ⟨"CVE-2024-1", "https://example.com/2", "SQLi", "B", "2024"⟩,
          ⟨"CVE-2023-2", "https://example.com/3", "CSRF", "C", "2023"⟩].filter
            (fun cv => cv.date == p.1)) ∧
      (∀ cv ∈ [(⟨"CVE-2023-1", "https://example.com/1", "XSS", "A", "2023"⟩ : Cve),
          ⟨"CVE-2024-1", "https://example.com/2", "SQLi", "B", "2024"⟩,
          ⟨"CVE-2023-2", "https://example.com/3", "CSRF", "C", "2023"⟩],
        ∃ p, p ∈ sortedYears g ∧ p.1 = cv.date ∧ cv ∈ p.2) ∧
      (∀ files, generateReadme
          (some [(⟨"CVE-2023-1", "https://example.com/1", "XSS", "A", "2023"⟩ : Cve),
            ⟨"CVE-2024-1", "https://example.com/2", "SQLi", "B", "2024"⟩,
            ⟨"CVE-2023-2", "https://example.com/3", "CSRF", "C", "2023"⟩]) files
        = .ok (tplHeader ++ String.join ((blogPostsOf files).map postEntryOf) ++
            tplMiddle ++ String.join ((sortedYears g).map yearBlock) ++ tplFooter))) :=
  ⟨by decide, claim4_theorem _ (by decide)⟩

/-- Claim C8: with an empty post directory the generator still succeeds —
the post section of the output is empty while the advisory section is fully
populated: each advisory of the (successfully grouped) collection appears
in its year group. -/
theorem claim8_theorem (cves : List Cve) (g : List (String × List Cve))
    (hg : groupCvesByYear cves = .ok g) :
    blogPostsOf [] = [] ∧
    postEntries [] = [] ∧
    generateReadme (some cves) []
      = .ok (tplHeader ++ "" ++ tplMiddle ++
          String.join ((sortedYears g).map yearBlock) ++ tplFooter) ∧
    ∀ cv ∈ cves, ∃ p, p ∈ sortedYears g ∧ p.1 = cv.date ∧ cv ∈ p.2 := by
  obtain ⟨hnd, hgrp, hcov⟩ := groupCvesByYear_spec hg
  have hperm : (sortedYears g).Perm g := v8Sort_perm _ g
  refine ⟨rfl, rfl, ?_, ?_⟩
  · exact generateReadme_ok [] hg
  · intro cv hcv
    have hkey : cv.date ∈ (sortedYears g).map Prod.fst :=
      (hperm.map Prod.fst).mem_iff.mpr (hcov cv hcv)
    rw [List.mem_map] at hkey
    obtain ⟨p, hp, hpd⟩ := hkey
    refine ⟨p, hp, hpd, ?_⟩
    rw [hgrp p (hperm.mem_iff.mp hp)]
    rw [List.mem_filter]
    exact ⟨hcv, by simp [hpd]⟩

/-- Claim C8 witness: the claim evaluated at a one-advisory collection and
the empty file list. -/
theorem claim8_witness :
    groupCvesByYear [(⟨"CVE-2021-5", "https://example.com/d", "LFI", "Site", "2021"⟩ : Cve)]
      = .ok [("2021", [⟨"CVE-2021-5", "https://example.com/d", "LFI", "Site", "2021"⟩])] ∧
    (blogPostsOf [] = [] ∧
     postEntries [] = [] ∧
     generateReadme (some [(⟨"CVE-2021-5", "https://example.com/d", "LFI", "Site", "2021"⟩ : Cve)]) []
       = .ok (tplHeader ++ "" ++ tplMiddle ++
           String.join ((sortedYears
             [("2021", [(⟨"CVE-2021-5", "https://example.com/d", "LFI", "Site", "2021"⟩ : Cve)])]).map
               yearBlock) ++ tplFooter) ∧
     ∀ cv ∈ [(⟨"CVE-2021-5", "https://example.com/d", "LFI", "Site", "2021"⟩ : Cve)],
       ∃ p, p ∈ sortedYears
           [("2021", [(⟨"CVE-2021-5", "https://example.com/d", "LFI", "Site", "2021"⟩ : Cve)])] ∧
         p.1 = cv.date ∧ cv ∈ p.2) :=
  ⟨rfl, claim8_theorem _ _ rfl⟩

/-- Claim C10 counterexample: an advisory whose year field is `toString`
makes the grouping throw (the inherited property is truthy, so the guarded
initialisation is skipped and `push` is called on a function); the run
aborts and the advisory produces no rendered line, contradicting the
claim for arbitrary year values. -/
theorem claim10_counterexample :
    groupCvesByYear [⟨"CVE-2", "https://example.com/y", "XSS", "App", "toString"⟩]
      = .error "TypeError: acc[year].push is not a function" ∧
    generateReadme (some [⟨"CVE-2", "https://example.com/y", "XSS", "App", "toString"⟩]) []
      = .error "TypeError: acc[year].push is not a function" := ⟨rfl, rfl⟩

/-- Claim C10 (amended): whenever the grouping succeeds (no year field
collides with a built-in object property), it is a partition: the year
groups flatten back to a permutation of the advisory collection, and the
multiset of rendered advisory lines equals one line per input advisory —
none dropped, none duplicated. -/
theorem claim10_theorem (cves : List Cve) (g : List (String × List Cve))
    (hg : groupCvesByYear cves = .ok g) :
    (((sortedYears g).map Prod.snd).flatten).Perm cves ∧
    (((sortedYears g).map (fun p => p.2.map cveEntryOf)).flatten).Perm
      (cves.map cveEntryOf) := by
  obtain ⟨hnd, hgrp, hcov⟩ := groupCvesByYear_spec hg
  have hperm : (sortedYears g).Perm g := v8Sort_perm _ g
  have h1 : (((sortedYears g).map Prod.snd).flatten).Perm cves := by
    refine flatten_groups_perm cves (sortedYears g) ?_ ?_ ?_
    · exact (hperm.map Prod.fst).nodup_iff.mpr hnd
    · exact fun p hp => hgrp p (hperm.mem_iff.mp hp)
    · exact fun cv hcv => (hperm.map Prod.fst).mem_iff.mpr (hcov cv hcv)
  refine ⟨h1, ?_⟩
  have hmapfl : (((sortedYears g).map Prod.snd).flatten).map cveEntryOf
      = ((sortedYears g).map (fun p => p.2.map cveEntryOf)).flatten := by
    rw [List.map_flatten, List.map_map]
    rfl
  rw [← hmapfl]
  exact h1.map cveEntryOf

/-- Claim C10 witness: the amended claim evaluated at a three-advisory
collection with a shared year. -/
theorem claim10_witness :
    groupCvesByYear [(⟨"CVE-2019-1", "https://example.com/p", "XSS", "A", "2019"⟩ : Cve),
        ⟨"CVE-2020-1", "https://example.com/q", "SQLi", "B", "2020"⟩,
        ⟨"CVE-2019-2", "https://example.com/r", "CSRF", "C", "2019"⟩]
      = .ok [("2019", [⟨"CVE-2019-1", "https://example.com/p", "XSS", "A", "2019"⟩,
            ⟨"CVE-2019-2", "https://example.com/r", "CSRF", "C", "2019"⟩]),
          ("2020", [⟨"CVE-2020-1", "https://example.com/q", "SQLi", "B", "2020"⟩])] ∧
    ((((sortedYears [("2019", [(⟨"CVE-2019-1", "https://example.com/p", "XSS", "A", "2019"⟩ : Cve),
            ⟨"CVE-2019-2", "https://example.com/r", "CSRF", "C", "2019"⟩]),
          ("2020", [⟨"CVE-2020-1", "https://example.com/q", "SQLi", "B", "2020"⟩])]).map
          Prod.snd).flatten).Perm
        [(⟨"CVE-2019-1", "https://example.com/p", "XSS", "A", "2019"⟩ : Cve),
          ⟨"CVE-2020-1", "https://example.com/q", "SQLi", "B", "2020"⟩,
          ⟨"CVE-2019-2", "https://example.com/r", "CSRF", "C", "2019"⟩] ∧
     (((sortedYears [("2019", [(⟨"CVE-2019-1", "https://example.com/p", "XSS", "A", "2019"⟩ : Cve),
            ⟨"CVE-2019-2", "https://example.com/r", "CSRF", "C", "2019"⟩]),
          ("2020", [⟨"CVE-2020-1", "https://example.com/q", "SQLi", "B", "2020"⟩])]).map
          (fun p => p.2.map cveEntryOf)).flatten).Perm
        ([(⟨"CVE-2019-1", "https://example.com/p", "XSS", "A", "2019"⟩ : Cve),
          ⟨"CVE-2020-1", "https://example.com/q", "SQLi", "B", "2020"⟩,
          ⟨"CVE-2019-2", "https://example.com/r", "CSRF", "C", "2019"⟩].map cveEntryOf)) :=
  ⟨rfl, claim10_theorem _ _ rfl⟩
